import Mathlib

/- Verification of the jqsh execution engine against its specification.

   Shallow embedding of the sources jqsh/filter.py, jqsh/functions.py and
   jqsh/parser.py.  Python str is modelled as String (or List Char where the
   source walks a string character by character), Python lists and fully
   drained generator outputs as List, arbitrary-precision decimal numbers as
   rationals, dictionaries as association lists.  jqsh/values.py and
   jqsh/channel.py are not among the sources; the value variants and channel
   operations they provide are modelled from the specification and marked as
   such.  Channels are modelled by the finite sequence of values that flows
   through them; a forked channel replays the same sequence to each reader,
   so a fork is the same list. -/

/-- Modelled from the spec: the Value data model of jqsh/values.py (not among
the sources).  Variants per spec section 3: Null, Boolean, Number
(arbitrary-precision decimal, carried as a rational), String, Array, Object
(insertion-ordered key/value entries), and Exception carrying a symbolic
kind. -/
inductive Value : Type where
  | null : Value
  | bool (b : Bool) : Value
  | num (q : ℚ) : Value
  | str (s : String) : Value
  | arr (elems : List Value) : Value
  | obj (entries : List (Value × Value)) : Value
  | exc (kind : String) : Value

/-- The isinstance(value, jqsh.values.JQSHException) test used throughout
filter.py. -/
def isException : Value → Bool
  | .exc _ => true
  | _ => false

/-- Values drawn from a stream up to and including its first Exception value
(the whole stream when no Exception occurs).  This is the consumption pattern
of the two loops of Filter.run_raw (filter.py lines 52-55 and 64-68), which
break right after meeting an Exception. -/
def takeThroughExc : List Value → List Value
  | [] => []
  | v :: rest => if isException v then [v] else v :: takeThroughExc rest

/-- The first Exception value of a stream, if any. -/
def firstExc? : List Value → Option Value
  | [] => none
  | v :: rest => if isException v then some v else firstExc? rest

/-- Result of iterating a Python generator to exhaustion: the values it
yielded, and whether asking for the next value after them raises an internal
Python exception (which filter.py lines 56-57 catch). -/
structure RunGen where
  yields : List Value
  raises : Bool

/-- Modelled from the spec: the operations invoked on the output channel of
jqsh/channel.py (not among the sources), per spec section 4.1: push appends a
value, terminate marks end-of-stream, throw is a push of an Exception value
followed by a terminate. -/
inductive Event : Type where
  | push (v : Value) : Event
  | terminate : Event

/-- Output-channel events of the helper thread of Filter.run_raw (filter.py
lines 50-57): every value yielded by run is pushed, and the loop breaks right
after pushing an Exception (so the raise, which could only happen while
asking for a further value, never surfaces then); a raise from run is
converted by output_channel.throw into an internal Exception push followed by
a terminate. -/
def helperEvents (g : RunGen) : List Event :=
  if g.yields.any isException then
    (takeThroughExc g.yields).map Event.push
  else if g.raises then
    g.yields.map Event.push ++ [Event.push (Value.exc "internal"), Event.terminate]
  else
    g.yields.map Event.push

/-- Output-channel events of the main loop of Filter.run_raw (filter.py lines
64-72): an Exception read from the input is forwarded by output_channel.throw
(a push plus a terminate) and the loop breaks; line 72 then terminates the
output channel unconditionally. -/
def mainEvents (input : List Value) : List Event :=
  match firstExc? input with
  | some e => [Event.push e, Event.terminate, Event.terminate]
  | none => [Event.terminate]

/-- What one run of the generic worker did: the values it drew from its input
channel, and the events of its output channel, helper thread and main thread
kept apart (the two threads run concurrently, so only the per-thread order is
determined). -/
structure RawResult where
  consumed : List Value
  hEvents : List Event
  mEvents : List Event

/-- Filter.run_raw (filter.py lines 48-72): the main loop feeds the input
values into the bridge channel, breaking right after the first Exception (so
the bridge holds the input up to and including it); the helper thread runs
the filter body against the bridge. -/
def run_raw (run : List Value → RunGen) (input : List Value) : RawResult :=
  let bridge := takeThroughExc input
  { consumed := bridge
    hEvents := helperEvents (run bridge)
    mEvents := mainEvents input }

/-- All output-channel events of a run, helper thread first (one of the
possible serializations of the concurrent run; the claims below only depend
on interleaving-independent facts). -/
def RawResult.events (r : RawResult) : List Event := r.hEvents ++ r.mEvents

/-- How many times the output channel was terminated. -/
def terminateCount : List Event → Nat
  | [] => 0
  | Event.terminate :: rest => terminateCount rest + 1
  | Event.push _ :: rest => terminateCount rest

/-- The values pushed onto the output channel, in event order. -/
def pushedValues : List Event → List Value
  | [] => []
  | Event.push v :: rest => v :: pushedValues rest
  | Event.terminate :: rest => pushedValues rest

theorem takeThroughExc_split (pre : List Value) (e : Value) (post : List Value)
    (hpre : ∀ v ∈ pre, isException v = false) (he : isException e = true) :
    takeThroughExc (pre ++ e :: post) = pre ++ [e] := by
  induction pre with
  | nil => simp [takeThroughExc, he]
  | cons v rest ih =>
      have hv : isException v = false := hpre v (by simp)
      have hrest : ∀ w ∈ rest, isException w = false := fun w hw => hpre w (by simp [hw])
      simp [takeThroughExc, hv, ih hrest]

theorem firstExc?_split (pre : List Value) (e : Value) (post : List Value)
    (hpre : ∀ v ∈ pre, isException v = false) (he : isException e = true) :
    firstExc? (pre ++ e :: post) = some e := by
  induction pre with
  | nil => simp [firstExc?, he]
  | cons v rest ih =>
      have hv : isException v = false := hpre v (by simp)
      have hrest : ∀ w ∈ rest, isException w = false := fun w hw => hpre w (by simp [hw])
      simp [firstExc?, hv, ih hrest]

theorem any_isException_split (pre : List Value) (e : Value) (post : List Value)
    (he : isException e = true) :
    (pre ++ e :: post).any isException = true := by
  simp only [List.any_eq_true]
  exact ⟨e, by simp, he⟩

/-- Claim C1: through the generic worker wrapper Filter.run_raw, an Exception
appearing in the input channel is forwarded unchanged to the output channel
and no further values are drawn from the input; and no generated output
values are pushed downstream after the first Exception among the worker's own
yields. -/
theorem claim_C1_run_raw_exception_shortcircuit
    (run : List Value → RunGen) (input : List Value) :
    (∀ pre e post, input = pre ++ e :: post →
      (∀ v ∈ pre, isException v = false) → isException e = true →
      (run_raw run input).consumed = pre ++ [e] ∧
      Event.push e ∈ (run_raw run input).mEvents) ∧
    (∀ ys1 f ys2, (run (takeThroughExc input)).yields = ys1 ++ f :: ys2 →
      (∀ v ∈ ys1, isException v = false) → isException f = true →
      (run_raw run input).hEvents = (ys1 ++ [f]).map Event.push) := by
  constructor
  · intro pre e post hin hpre he
    subst hin
    constructor
    · simpa [run_raw] using takeThroughExc_split pre e post hpre he
    · simp [run_raw, mainEvents, firstExc?_split pre e post hpre he]
  · intro ys1 f ys2 hys hpre hf
    have hany : (run (takeThroughExc input)).yields.any isException = true := by
      rw [hys]; exact any_isException_split ys1 f ys2 hf
    have htake : takeThroughExc (run (takeThroughExc input)).yields = ys1 ++ [f] := by
      rw [hys]; exact takeThroughExc_split ys1 f ys2 hpre hf
    simp [run_raw, helperEvents, hany, htake]

def c1Run : List Value → RunGen :=
  fun _ => { yields := [Value.num 1, Value.exc "type", Value.null], raises := false }

def c1Input : List Value := [Value.num 2, Value.exc "name", Value.num 3]

theorem claim_C1_witness :
    ((run_raw c1Run c1Input).consumed = [Value.num 2, Value.exc "name"] ∧
      Event.push (Value.exc "name") ∈ (run_raw c1Run c1Input).mEvents) ∧
    (run_raw c1Run c1Input).hEvents =
      ([Value.num 1, Value.exc "type"]).map Event.push := by
  refine ⟨?_, ?_⟩
  · exact (claim_C1_run_raw_exception_shortcircuit c1Run c1Input).1
      [Value.num 2] (Value.exc "name") [Value.num 3] rfl
      (by intro v hv; simp at hv; subst hv; rfl) rfl
  · exact (claim_C1_run_raw_exception_shortcircuit c1Run c1Input).2
      [Value.num 1] (Value.exc "type") [Value.null] rfl
      (by intro v hv; simp at hv; subst hv; rfl) rfl

theorem terminateCount_append (a b : List Event) :
    terminateCount (a ++ b) = terminateCount a + terminateCount b := by
  induction a with
  | nil => simp [terminateCount]
  | cons e rest ih =>
      cases e with
      | push v => simp [terminateCount, ih]
      | terminate => simp [terminateCount, ih]; omega

theorem terminateCount_map_push (l : List Value) :
    terminateCount (l.map Event.push) = 0 := by
  induction l with
  | nil => rfl
  | cons v rest ih => simp [terminateCount, ih]

/-- Claim C2 counterexample: a worker whose evaluation logic raises an
unexpected internal failure (converted to an internal Exception by
output_channel.throw, which itself terminates) reaches line 72 of filter.py
afterwards and terminates again, so its output channel is not terminated
exactly once. -/
theorem claim_C2_counterexample :
    ¬ terminateCount ((run_raw (fun _ => { yields := [], raises := true }) []).events) = 1 := by
  decide

/-- Claim C2 amended: every worker started through Filter.run_raw terminates
its output channel at least once and at most three times, and exactly once
precisely when no Exception is forwarded from the input and no internal
failure is converted into an internal Exception (a throw itself terminates,
and the unconditional terminate of line 72 then repeats it). -/
theorem claim_C2_amended_termination (run : List Value → RunGen) (input : List Value) :
    1 ≤ terminateCount ((run_raw run input).events) ∧
    terminateCount ((run_raw run input).events) ≤ 3 ∧
    (terminateCount ((run_raw run input).events) = 1 ↔
      (firstExc? input = none ∧
        ((run (takeThroughExc input)).yields.any isException = true ∨
          (run (takeThroughExc input)).raises = false))) := by
  have hmain : terminateCount (mainEvents input) =
      (match firstExc? input with | some _ => 2 | none => 1) := by
    unfold mainEvents
    cases firstExc? input <;> simp [terminateCount]
  have hhelp : terminateCount (helperEvents (run (takeThroughExc input))) =
      (if (run (takeThroughExc input)).yields.any isException then 0
        else if (run (takeThroughExc input)).raises then 1 else 0) := by
    unfold helperEvents
    split
    · simp [terminateCount_map_push]
    · split
      · simp [terminateCount_append, terminateCount_map_push, terminateCount]
      · simp [terminateCount_map_push]
  have hev : terminateCount ((run_raw run input).events) =
      terminateCount (helperEvents (run (takeThroughExc input))) +
        terminateCount (mainEvents input) := by
    simp [run_raw, RawResult.events, terminateCount_append]
  rw [hev, hhelp, hmain]
  rcases h1 : firstExc? input with _ | e <;>
    rcases h2 : (run (takeThroughExc input)).yields.any isException <;>
      rcases h3 : (run (takeThroughExc input)).raises <;>
        simp <;> omega

/-- Modelled from the spec: equality of jqsh values (used by the Python dict
of entries inside an Object to compare keys). -/
def Value.beq : Value → Value → Bool
  | .null, .null => true
  | .bool a, .bool b => a == b
  | .num a, .num b => a == b
  | .str a, .str b => a == b
  | .arr [], .arr [] => true
  | .arr (x :: xs), .arr (y :: ys) => Value.beq x y && Value.beq (.arr xs) (.arr ys)
  | .obj [], .obj [] => true
  | .obj ((k1, v1) :: xs), .obj ((k2, v2) :: ys) =>
      Value.beq k1 k2 && Value.beq v1 v2 && Value.beq (.obj xs) (.obj ys)
  | .exc a, .exc b => a == b
  | _, _ => false

/-- Value of the entry with the given key, if present. -/
def entryValue? (k : Value) : List (Value × Value) → Option Value
  | [] => none
  | (k2, v) :: rest => if Value.beq k2 k then some v else entryValue? k rest

/-- Modelled from the spec: the Object merge of Add.run (filter.py lines
357-360, copy.copy of the left Object followed by dict update with the
right): right overrides left on key conflict, keys only on the right are
appended in their order. -/
def objMerge (a b : List (Value × Value)) : List (Value × Value) :=
  (a.map fun p =>
    match entryValue? p.1 b with
    | some v => (p.1, v)
    | none => p) ++
  b.filter fun p => (entryValue? p.1 a).isNone

/-- Combination of one left/right pair by Add.run (filter.py lines 351-362):
Number+Number sums, Array+Array concatenates, String+String concatenates,
Object+Object merges, every other combination is a type Exception. -/
def addCombine : Value → Value → Value
  | .num a, .num b => .num (a + b)
  | .arr a, .arr b => .arr (a ++ b)
  | .str a, .str b => .str (a ++ b)
  | .obj a, .obj b => .obj (objMerge a b)
  | _, _ => .exc "type"

/-- The Python string/list repetition s * n (n repetitions, empty for a
non-positive count). -/
def repeatString (s : String) : Nat → String
  | 0 => ""
  | n + 1 => s ++ repeatString s n

/-- more_itertools.ncycles of a drained list. -/
def repeatList (l : List Value) : Nat → List Value
  | 0 => []
  | n + 1 => l ++ repeatList l n

/-- Combination of one left/right pair by Multiply.run (filter.py lines
490-513): Number*Number multiplies; String*Number and Number*String repeat
the string when the number is integral, else an integer Exception (int of a
negative number repeats zero times); Array*Number and Number*Array likewise
repeat the array; every other combination is a type Exception.  The two
Number-on-the-left cases are the source's decimal.Decimal cases: a jqsh
Number carries a decimal. -/
def multiplyCombine : Value → Value → Value
  | .num a, .num b => .num (a * b)
  | .str s, .num b => if b.den = 1 then .str (repeatString s b.num.toNat) else .exc "integer"
  | .arr l, .num b => if b.den = 1 then .arr (repeatList l b.num.toNat) else .exc "integer"
  | .num a, .str s => if a.den = 1 then .str (repeatString s a.num.toNat) else .exc "integer"
  | .num a, .arr l => if a.den = 1 then .arr (repeatList l a.num.toNat) else .exc "integer"
  | _, _ => .exc "type"

/-- Operator.output_pairs (filter.py lines 319-332): fork the input to both
operands, drain both operand outputs fully; nothing when both are empty, the
other side's values unpaired when exactly one is empty, else max(m, n) pairs
cycling each side by its own length. -/
def output_pairs (leftOut rightOut : List Value) : List (Sum Value (Value × Value)) :=
  if leftOut.length = 0 ∧ rightOut.length = 0 then []
  else if hl : leftOut.length = 0 then rightOut.map Sum.inl
  else if hr : rightOut.length = 0 then leftOut.map Sum.inl
  else
    (List.range (max leftOut.length rightOut.length)).map fun i =>
      Sum.inr
        (leftOut.get ⟨i % leftOut.length, Nat.mod_lt i (Nat.pos_of_ne_zero hl)⟩,
         rightOut.get ⟨i % rightOut.length, Nat.mod_lt i (Nat.pos_of_ne_zero hr)⟩)

/-- The per-output step of Add.run (filter.py lines 345-362): a non-pair
output is yielded unchanged, a pair is combined. -/
def addStep : Sum Value (Value × Value) → Value
  | .inl v => v
  | .inr (l, r) => addCombine l r

/-- The per-output step of Multiply.run (filter.py lines 484-513). -/
def mulStep : Sum Value (Value × Value) → Value
  | .inl v => v
  | .inr (l, r) => multiplyCombine l r

/-- Add.run (filter.py lines 344-362), with the two operands abstracted by
the streams they produce from the forked input. -/
def Add_run (evalL evalR : List Value → List Value) (input : List Value) : List Value :=
  (output_pairs (evalL input) (evalR input)).map addStep

/-- Multiply.run (filter.py lines 483-513). -/
def Multiply_run (evalL evalR : List Value → List Value) (input : List Value) : List Value :=
  (output_pairs (evalL input) (evalR input)).map mulStep

theorem map_addStep_inl (xs : List Value) : (xs.map Sum.inl).map addStep = xs := by
  induction xs with
  | nil => rfl
  | cons v rest ih => simp [addStep, ih]

theorem map_mulStep_inl (xs : List Value) : (xs.map Sum.inl).map mulStep = xs := by
  induction xs with
  | nil => rfl
  | cons v rest ih => simp [mulStep, ih]

theorem output_pairs_left_nil (r : List Value) (hr : r ≠ []) :
    output_pairs [] r = r.map Sum.inl := by
  have : r.length ≠ 0 := by simpa using hr
  simp [output_pairs, this]

theorem output_pairs_right_nil (l : List Value) (hl : l ≠ []) :
    output_pairs l [] = l.map Sum.inl := by
  have : l.length ≠ 0 := by simpa using hl
  simp [output_pairs, this]

theorem output_pairs_both (l r : List Value) (hl : l ≠ []) (hr : r ≠ []) :
    output_pairs l r =
      (List.range (max l.length r.length)).map fun i =>
        Sum.inr (l.getD (i % l.length) Value.null, r.getD (i % r.length) Value.null) := by
  have hl0 : l.length ≠ 0 := by simpa using hl
  have hr0 : r.length ≠ 0 := by simpa using hr
  rw [output_pairs]
  simp only [hl0, hr0, and_false, false_and, if_false, dif_neg, not_false_iff]
  apply List.map_congr_left
  intro i hi
  have h1 : i % l.length < l.length := Nat.mod_lt i (Nat.pos_of_ne_zero hl0)
  have h2 : i % r.length < r.length := Nat.mod_lt i (Nat.pos_of_ne_zero hr0)
  simp [List.getD_eq_getElem, h1, h2]

/-- Claim C3: for Add and Multiply, the input is forked to both operands and
both operand outputs are fully drained; both empty gives an empty result,
exactly one empty yields the other side unchanged, and for non-empty drained
outputs of lengths m and n exactly max(m, n) combined results are produced,
result i combining left(i mod m) with right(i mod n). -/
theorem claim_C3_output_pairs_cycle
    (evalL evalR : List Value → List Value) (input : List Value) :
    (evalL input = [] → evalR input = [] →
      output_pairs (evalL input) (evalR input) = [] ∧
      Add_run evalL evalR input = [] ∧ Multiply_run evalL evalR input = []) ∧
    (evalL input = [] → evalR input ≠ [] →
      Add_run evalL evalR input = evalR input ∧
      Multiply_run evalL evalR input = evalR input) ∧
    (evalL input ≠ [] → evalR input = [] →
      Add_run evalL evalR input = evalL input ∧
      Multiply_run evalL evalR input = evalL input) ∧
    (evalL input ≠ [] → evalR input ≠ [] →
      (Add_run evalL evalR input).length =
        max (evalL input).length (evalR input).length ∧
      (Multiply_run evalL evalR input).length =
        max (evalL input).length (evalR input).length ∧
      (∀ i, i < max (evalL input).length (evalR input).length →
        (Add_run evalL evalR input).getD i Value.null =
          addCombine ((evalL input).getD (i % (evalL input).length) Value.null)
            ((evalR input).getD (i % (evalR input).length) Value.null) ∧
        (Multiply_run evalL evalR input).getD i Value.null =
          multiplyCombine ((evalL input).getD (i % (evalL input).length) Value.null)
            ((evalR input).getD (i % (evalR input).length) Value.null))) := by
  refine ⟨?_, ?_, ?_, ?_⟩
  · intro h1 h2
    rw [Add_run, Multiply_run, h1, h2]
    simp [output_pairs]
  · intro h1 h2
    rw [Add_run, Multiply_run, h1, output_pairs_left_nil _ h2]
    exact ⟨map_addStep_inl _, map_mulStep_inl _⟩
  · intro h1 h2
    rw [Add_run, Multiply_run, h2, output_pairs_right_nil _ h1]
    exact ⟨map_addStep_inl _, map_mulStep_inl _⟩
  · intro h1 h2
    rw [Add_run, Multiply_run, output_pairs_both _ _ h1 h2]
    rw [List.map_map, List.map_map]
    refine ⟨by simp, by simp, ?_⟩
    intro i hi
    constructor
    · rw [List.getD_eq_getElem _ _ (by simpa using hi)]
      simp [addStep]
    · rw [List.getD_eq_getElem _ _ (by simpa using hi)]
      simp [mulStep]

def c3L : List Value → List Value := fun _ => [Value.num 1, Value.num 2]

def c3R : List Value → List Value := fun _ => [Value.num 10, Value.num 20, Value.num 30]

theorem claim_C3_witness :
    (Add_run c3L c3R []).length = max (c3L []).length (c3R []).length ∧
    (Multiply_run c3L c3R []).getD 2 Value.null =
      multiplyCombine ((c3L []).getD (2 % (c3L []).length) Value.null)
        ((c3R []).getD (2 % (c3R []).length) Value.null) := by
  have h := (claim_C3_output_pairs_cycle c3L c3R []).2.2.2 (by simp [c3L]) (by simp [c3R])
  exact ⟨h.1, (h.2.2 2 (by simp [c3L, c3R])).2⟩

/-- Modelled from the spec: jqsh.values.Object.push (values.py, not among the
sources).  Per spec section 3 an Object is built by pushing 2-element
[key, value] Arrays: a non-Array element raises TypeError, an Array of the
wrong length raises ValueError; a well-formed element appends its entry. -/
def pushOutcome : Value → Except String (Value × Value)
  | .arr [k, v] => .ok (k, v)
  | .arr _ => .error "length"
  | _ => .error "type"

/-- The loop of Object.run (filter.py lines 110-121): each child value is
pushed into the Object under construction; TypeError yields a type Exception,
ValueError a length Exception, and the loop continues; the Object is yielded
after the loop. -/
def objectRunAux : List (Value × Value) → List Value → List Value
  | entries, [] => [Value.obj entries]
  | entries, v :: rest =>
    match pushOutcome v with
    | .ok kv => objectRunAux (entries ++ [kv]) rest
    | .error k => Value.exc k :: objectRunAux entries rest

/-- Object.run (filter.py lines 110-121), with the child abstracted by the
stream it produces. -/
def Object_run (childOut : List Value) : List Value := objectRunAux [] childOut

/-- The generator an Object filter hands to Filter.run_raw: it yields the
Object_run values and raises nothing itself. -/
def objectGen (child : List Value → List Value) : List Value → RunGen :=
  fun input => { yields := Object_run (child input), raises := false }

/-- The Exception kind an element would provoke, if malformed. -/
def badKind (v : Value) : Option String :=
  match pushOutcome v with
  | .error k => some k
  | .ok _ => none

/-- The entry a well-formed element contributes. -/
def goodKV (v : Value) : Option (Value × Value) :=
  match pushOutcome v with
  | .ok kv => some kv
  | .error _ => none

theorem objectRunAux_eq (entries : List (Value × Value)) (l : List Value) :
    objectRunAux entries l =
      (l.filterMap badKind).map Value.exc ++
        [Value.obj (entries ++ l.filterMap goodKV)] := by
  induction l generalizing entries with
  | nil => simp [objectRunAux]
  | cons v rest ih =>
      rcases h : pushOutcome v with k | kv
      · simp [objectRunAux, h, ih, badKind, goodKV]
      · simp [objectRunAux, h, ih, badKind, goodKV, List.append_assoc]

theorem Object_run_eq (childOut : List Value) :
    Object_run childOut =
      (childOut.filterMap badKind).map Value.exc ++
        [Value.obj (childOut.filterMap goodKV)] := by
  simpa using objectRunAux_eq [] childOut

/-- Claim C4 counterexample: a child output consisting of one malformed
(non-Array) element.  The generator yields the type Exception and then the
Object, but the worker wrapper Filter.run_raw stops pushing downstream right
after the Exception, so the Object built from the remaining (here zero) valid
elements is never emitted on the filter's output. -/
theorem claim_C4_counterexample :
    pushedValues ((run_raw (objectGen fun _ => [Value.null]) []).events) =
        [Value.exc "type"] ∧
      Value.obj [] ∉ pushedValues ((run_raw (objectGen fun _ => [Value.null]) []).events) := by
  constructor
  · rfl
  · intro h
    rw [show pushedValues ((run_raw (objectGen fun _ => [Value.null]) []).events) =
        [Value.exc "type"] from rfl] at h
    simp at h

theorem pushedValues_append (a b : List Event) :
    pushedValues (a ++ b) = pushedValues a ++ pushedValues b := by
  induction a with
  | nil => rfl
  | cons e rest ih => cases e <;> simp [pushedValues, ih]

theorem pushedValues_map_push (l : List Value) :
    pushedValues (l.map Event.push) = l := by
  induction l with
  | nil => rfl
  | cons v rest ih => simp [pushedValues, ih]

theorem firstExc?_none_iff (l : List Value) :
    firstExc? l = none ↔ l.any isException = false := by
  induction l with
  | nil => simp [firstExc?]
  | cons v rest ih => by_cases hv : isException v <;> simp [firstExc?, hv, ih]

theorem takeThroughExc_of_not_any :
    ∀ l : List Value, l.any isException = false → takeThroughExc l = l
  | [], _ => rfl
  | v :: rest, h => by
      have hv : isException v = false := by
        cases hvv : isException v
        · rfl
        · simp [List.any_cons, hvv] at h
      have hrest : rest.any isException = false := by
        simpa [List.any_cons, hv] using h
      simp [takeThroughExc, hv, takeThroughExc_of_not_any rest hrest]

/-- Claim C4 amended: at the generator level each malformed element (wrong
shape gives a length Exception, non-Array a type Exception) produces one
inline Exception value for that element only, construction continues past it,
and the remaining valid elements still populate the Object, which the
generator yields last; but the worker wrapper stops forwarding at the first
Exception, so the Object reaches the filter's downstream output only when no
element was malformed. -/
theorem claim_C4_amended_object_errors (child : List Value → List Value) (input : List Value) :
    Object_run (child input) =
      ((child input).filterMap badKind).map Value.exc ++
        [Value.obj ((child input).filterMap goodKV)] ∧
    (firstExc? input = none →
      pushedValues ((run_raw (objectGen child) input).events) =
        takeThroughExc (Object_run (child input))) := by
  constructor
  · exact Object_run_eq (child input)
  · intro hin
    have hany : input.any isException = false := (firstExc?_none_iff input).mp hin
    have hbridge : takeThroughExc input = input := takeThroughExc_of_not_any input hany
    have hm : pushedValues (mainEvents input) = [] := by
      simp [mainEvents, hin, pushedValues]
    have hh : pushedValues (helperEvents (objectGen child input)) =
        takeThroughExc (Object_run (child input)) := by
      by_cases hy : (Object_run (child input)).any isException
      · simp [helperEvents, objectGen, hy, pushedValues_map_push]
      · simp [helperEvents, objectGen, hy, pushedValues_map_push,
          takeThroughExc_of_not_any _ (by simpa using hy)]
    calc pushedValues ((run_raw (objectGen child) input).events)
        = pushedValues (helperEvents (objectGen child input)) ++
            pushedValues (mainEvents input) := by
          simp [run_raw, RawResult.events, pushedValues_append, hbridge]
      _ = takeThroughExc (Object_run (child input)) := by rw [hh, hm, List.append_nil]

def c4Child : List Value → List Value :=
  fun _ => [Value.arr [Value.str "k", Value.num 1], Value.null]

theorem claim_C4_witness :
    Object_run (c4Child []) =
      ((c4Child []).filterMap badKind).map Value.exc ++
        [Value.obj ((c4Child []).filterMap goodKV)] ∧
    pushedValues ((run_raw (objectGen c4Child) []).events) =
      takeThroughExc (Object_run (c4Child [])) := by
  exact ⟨(claim_C4_amended_object_errors c4Child []).1,
    (claim_C4_amended_object_errors c4Child []).2 rfl⟩

/-- A namespace: a Python dict from variable name to the fully captured value
sequence of the binding (spec section 3), as an association list. -/
abbrev NS := List (String × List Value)

def nsLookup (name : String) : NS → Option (List Value)
  | [] => none
  | (k, v) :: rest => if k = name then some v else nsLookup name rest

/-- Python dict assignment d[name] = vals: replace in place when the key is
present, else append. -/
def nsInsert (name : String) (vals : List Value) : NS → NS
  | [] => [(name, vals)]
  | (k, v) :: rest =>
    if k = name then (k, vals) :: rest else (k, v) :: nsInsert name vals rest

/-- The left operand of an Assign as seen by Assign.run_raw (filter.py lines
462-468): a Name (filter.py lines 208-230), a GlobalVariable whose attribute
resolved by sensible_string to the given name or failed to (filter.py lines
590-617), or any other filter, whose base-class assign raises
NotImplementedError (filter.py lines 37-38). -/
inductive AssignTarget : Type where
  | name (s : String) : AssignTarget
  | globalVar (s : Option String) : AssignTarget
  | other : AssignTarget

/-- What an Assign worker leaves behind: the input-fork values its
handle_values thread forwarded to the output channel through
output_channel.pull, the Exception it threw (if any), and the local and
global namespaces carried by the output channel. -/
structure AssignOut where
  forwarded : List Value
  thrown : Option Value
  locals : NS
  globals : NS

/-- Assign.run_raw (filter.py lines 462-468) together with Name.assign
(lines 208-230), GlobalVariable.assign (lines 590-617) and the base
Filter.assign (lines 37-38): the input is forked, the right operand is
evaluated on one fork and fully drained into var; Name.assign and
GlobalVariable.assign forward the other fork's values to the output
(handle_values runs output_channel.pull on it, modelled from spec section
4.1), throw the first Exception of var without installing the binding if
there is one, and otherwise install name -> var into a copy of the local
(global) namespace; every other target raises NotImplementedError, which
Assign.run_raw converts into an assignment Exception (the output channel
then keeps its initial empty namespaces and forwards nothing). -/
def Assign_run_raw (target : AssignTarget) (right : List Value → List Value)
    (input : List Value) (locals globals : NS) : AssignOut :=
  let var := right input
  match target with
  | .name s =>
    (match firstExc? var with
      | some e => { forwarded := input, thrown := some e, locals := locals, globals := globals }
      | none =>
        { forwarded := input, thrown := none,
          locals := nsInsert s var locals, globals := globals })
  | .globalVar os =>
    (match os with
      | none =>
        { forwarded := input, thrown := some (Value.exc "sensibleString"),
          locals := locals, globals := globals }
      | some s =>
        match firstExc? var with
        | some e => { forwarded := input, thrown := some e, locals := locals, globals := globals }
        | none =>
          { forwarded := input, thrown := none,
            locals := locals, globals := nsInsert s var globals })
  | .other =>
    { forwarded := [], thrown := some (Value.exc "assignment"), locals := [], globals := [] }

def c5Right : List Value → List Value := fun _ => [Value.num 2]

def c5Input : List Value := [Value.num 1]

/-- Claim C5 counterexample: an Assign to a Name with a non-empty forked
input.  The handle_values thread of Name.assign forwards the input fork's
values to the output channel, so the output carries the value 1 and does not
yield nothing. -/
theorem claim_C5_counterexample :
    ¬ (Assign_run_raw (AssignTarget.name "x") c5Right c5Input [] []).forwarded = [] := by
  rw [show (Assign_run_raw (AssignTarget.name "x") c5Right c5Input [] []).forwarded =
      [Value.num 1] from rfl]
  simp

/-- Claim C5 amended: the right operand is evaluated fully into a captured
sequence; if any captured value is an Exception, the first such Exception is
thrown to the output and the binding is not installed; otherwise the binding
(name to full captured sequence) is installed in the local namespace for a
Name left operand or the global namespace for a GlobalVariable left operand,
and the worker contributes no values of its own - the output carries exactly
the forked input's values, forwarded unchanged, while carrying the updated
namespace; for any other left operand exactly one assignment Exception is
produced and nothing is forwarded. -/
theorem claim_C5_amended_assign (right : List Value → List Value) (input : List Value)
    (locals globals : NS) :
    (∀ s e, firstExc? (right input) = some e →
      Assign_run_raw (.name s) right input locals globals =
        { forwarded := input, thrown := some e, locals := locals, globals := globals }) ∧
    (∀ s, firstExc? (right input) = none →
      Assign_run_raw (.name s) right input locals globals =
        { forwarded := input, thrown := none,
          locals := nsInsert s (right input) locals, globals := globals }) ∧
    (∀ s e, firstExc? (right input) = some e →
      Assign_run_raw (.globalVar (some s)) right input locals globals =
        { forwarded := input, thrown := some e, locals := locals, globals := globals }) ∧
    (∀ s, firstExc? (right input) = none →
      Assign_run_raw (.globalVar (some s)) right input locals globals =
        { forwarded := input, thrown := none,
          locals := locals, globals := nsInsert s (right input) globals }) ∧
    Assign_run_raw .other right input locals globals =
      { forwarded := [], thrown := some (Value.exc "assignment"),
        locals := [], globals := [] } := by
  refine ⟨?_, ?_, ?_, ?_, rfl⟩
  · intro s e h; simp [Assign_run_raw, h]
  · intro s h; simp [Assign_run_raw, h]
  · intro s e h; simp [Assign_run_raw, h]
  · intro s h; simp [Assign_run_raw, h]

def c5BadRight : List Value → List Value := fun _ => [Value.exc "name"]

theorem claim_C5_witness :
    Assign_run_raw (AssignTarget.name "x") c5Right c5Input [] [] =
      { forwarded := c5Input, thrown := none,
        locals := nsInsert "x" (c5Right c5Input) [], globals := [] } ∧
    Assign_run_raw (AssignTarget.name "x") c5BadRight c5Input [] [] =
      { forwarded := c5Input, thrown := some (Value.exc "name"),
        locals := [], globals := [] } ∧
    Assign_run_raw (AssignTarget.globalVar (some "g")) c5Right c5Input [] [] =
      { forwarded := c5Input, thrown := none,
        locals := [], globals := nsInsert "g" (c5Right c5Input) [] } := by
  refine ⟨(claim_C5_amended_assign c5Right c5Input [] []).2.1 "x" rfl,
    (claim_C5_amended_assign c5BadRight c5Input [] []).1 "x" (Value.exc "name") rfl,
    (claim_C5_amended_assign c5Right c5Input [] []).2.2.2.1 "g" rfl⟩

/-- A filter denotation: the stream it produces from an input stream. -/
abbrev FDen := List Value → List Value

/-- One name's entry in the builtin registry of jqsh/functions.py: the dict
from argument count to implementation, plus the optional varargs entry. -/
structure BuiltinVector where
  arities : List (Nat × FDen)
  varargs : Option FDen

/-- The builtin_functions registry (functions.py line 10); spec-modelled as
also being the catalog reachable through a channel's context (channel.py is
not among the sources; per spec section 3 the context carries the builtin
catalog, and Name.run_raw's fallback check consults the same registry). -/
abbrev Catalog := List (String × BuiltinVector)

def catLookup (name : String) : Catalog → Option BuiltinVector
  | [] => none
  | (k, v) :: rest => if k = name then some v else catLookup name rest

def arityLookup (n : Nat) : List (Nat × FDen) → Option FDen
  | [] => none
  | (k, f) :: rest => if k = n then some f else arityLookup n rest

/-- get_builtin (functions.py lines 12-22): unknown names and names whose
vector has neither the wanted arity nor a varargs entry raise KeyError
(modelled as none). -/
def get_builtin (cat : Catalog) (name : String) (numArgs : Nat) : Option FDen :=
  match catLookup name cat with
  | some vec =>
    (match arityLookup numArgs vec.arities with
      | some f => some f
      | none => vec.varargs)
  | none => none

/-- Name.run_raw (filter.py lines 232-246): a name bound in the input
channel's local namespace replays its full captured value sequence; otherwise
the zero-arity builtin of that name is invoked on the input; otherwise a
single numArgs Exception is produced when the name is present in the builtin
registry at all, else a single name Exception. -/
def Name_run_raw (name : String) (cat : Catalog) (locals : NS) (input : List Value) :
    List Value :=
  match nsLookup name locals with
  | some seq => seq
  | none =>
    match get_builtin cat name 0 with
    | some builtin => builtin input
    | none =>
      if (catLookup name cat).isSome then [Value.exc "numArgs"] else [Value.exc "name"]

/-- Claim C6: Name resolution order, with the fallback Exceptions.  In the
last conjunct the name is absent from the builtin registry at arity zero and
varargs but present at some arity, which is exactly the source's condition
self.name in jqsh.functions.builtin_functions for choosing numArgs over
name. -/
theorem claim_C6_name_resolution (name : String) (cat : Catalog) (locals : NS)
    (input : List Value) :
    (∀ seq, nsLookup name locals = some seq →
      Name_run_raw name cat locals input = seq) ∧
    (nsLookup name locals = none →
      ∀ builtin, get_builtin cat name 0 = some builtin →
        Name_run_raw name cat locals input = builtin input) ∧
    (nsLookup name locals = none → get_builtin cat name 0 = none →
      (catLookup name cat).isSome →
      Name_run_raw name cat locals input = [Value.exc "numArgs"]) ∧
    (nsLookup name locals = none → catLookup name cat = none →
      Name_run_raw name cat locals input = [Value.exc "name"]) := by
  refine ⟨?_, ?_, ?_, ?_⟩
  · intro seq h; simp [Name_run_raw, h]
  · intro h builtin hb; simp [Name_run_raw, h, hb]
  · intro h hb hc
    simp [Name_run_raw, h, hb, hc]
  · intro h hc
    have hb : get_builtin cat name 0 = none := by simp [get_builtin, hc]
    simp [Name_run_raw, h, hb, hc]

def c6Cat : Catalog :=
  [("argv", { arities := [(0, fun _ => [Value.arr []])], varargs := none }),
   ("nth", { arities := [(1, fun _ => [Value.null])], varargs := none })]

def c6Locals : NS := [("x", [Value.num 1, Value.num 2])]

theorem claim_C6_witness :
    Name_run_raw "x" c6Cat c6Locals [] = [Value.num 1, Value.num 2] ∧
    Name_run_raw "argv" c6Cat [] [] = [Value.arr []] ∧
    Name_run_raw "nth" c6Cat [] [] = [Value.exc "numArgs"] ∧
    Name_run_raw "foo" c6Cat [] [] = [Value.exc "name"] := by
  refine ⟨(claim_C6_name_resolution "x" c6Cat c6Locals []).1 _ rfl, ?_, ?_, ?_⟩
  · have h := (claim_C6_name_resolution "argv" c6Cat [] []).2.1 rfl
      (fun _ => [Value.arr []]) (by rfl)
    exact h
  · exact (claim_C6_name_resolution "nth" c6Cat [] []).2.2.1 rfl rfl (by rfl)
  · exact (claim_C6_name_resolution "foo" c6Cat [] []).2.2.2 rfl rfl

/-- One (keyword, sub-filter) attribute of a Try filter (filter.py lines
157-196).  A catch attribute is carried as the result of evaluating its
sub-filter by sensible_string on a fork of the input: the resolved exception
name, or none when sensible_string raised StopIteration or TypeError. -/
inductive TryAttr : Type where
  | tryA (f : FDen) : TryAttr
  | catchA (name : List Value → Option String) : TryAttr
  | thenA (f : FDen) : TryAttr
  | exceptA (f : FDen) : TryAttr
  | elseA (f : FDen) : TryAttr

/-- The local state Try.run builds while walking its attributes (filter.py
lines 159-179). -/
structure TryCfg where
  tryB : Option FDen
  handlers : List (String × FDen)
  names : List String
  dflt : Option FDen
  elseH : Option FDen

def handlerLookup (name : String) : List (String × FDen) → Option FDen
  | [] => none
  | (k, f) :: rest => if k = name then some f else handlerLookup name rest

/-- Python dict assignment exception_handlers[name] = f. -/
def handlerInsert (name : String) (f : FDen) : List (String × FDen) → List (String × FDen)
  | [] => [(name, f)]
  | (k, g) :: rest =>
    if k = name then (k, f) :: rest else (k, g) :: handlerInsert name f rest

/-- The attribute walk of Try.run (filter.py lines 163-179): try sets the
try block, catch appends its resolved name to exception_names (a failed
sensible_string aborts the walk; Try.run then yields one sensibleString
Exception, see Try_run), then registers the handler for every accumulated
name, except sets the default handler, else the else handler. -/
def collectAttrs (input : List Value) : List TryAttr → TryCfg → Option TryCfg
  | [], cfg => some cfg
  | attr :: rest, cfg =>
    match attr with
    | .tryA f => collectAttrs input rest { cfg with tryB := some f }
    | .catchA g =>
      (match g input with
        | some s => collectAttrs input rest { cfg with names := cfg.names ++ [s] }
        | none => none)
    | .thenA f =>
      collectAttrs input rest
        { cfg with handlers := cfg.names.foldl (fun h n => handlerInsert n f h) cfg.handlers }
    | .exceptA f => collectAttrs input rest { cfg with dflt := some f }
    | .elseA f => collectAttrs input rest { cfg with elseH := some f }

def initTryCfg : TryCfg :=
  { tryB := none, handlers := [], names := [], dflt := none, elseH := none }

/-- The kind of an Exception value (applied only to values produced by
firstExc?, which are Exceptions). -/
def kindOf : Value → String
  | .exc k => k
  | _ => ""

/-- The dispatch loop of Try.run (filter.py lines 180-196): on the first
Exception of the try block's output, run the handler registered for its
kind, else the default handler, else yield that Exception and stop; with no
Exception, yield the else handler's output if one is present, else replay
the try block's own output from its second fork. -/
def Try_dispatch (cfg : TryCfg) (tb : FDen) (input : List Value) : List Value :=
  let tryOut := tb input
  match firstExc? tryOut with
  | some e =>
    (match handlerLookup (kindOf e) cfg.handlers with
      | some h => h input
      | none =>
        match cfg.dflt with
        | some d => d input
        | none => [e])
  | none =>
    (match cfg.elseH with
      | some f => f input
      | none => tryOut)

/-- Try.run (filter.py lines 158-196).  A failed catch name yields exactly
one sensibleString Exception; a Try without a try attribute leaves try_block
unbound in the Python (a NameError), modelled as none. -/
def Try_run (attrs : List TryAttr) (input : List Value) : Option (List Value) :=
  match collectAttrs input attrs initTryCfg with
  | none => some [Value.exc "sensibleString"]
  | some cfg =>
    (match cfg.tryB with
      | none => none
      | some tb => some (Try_dispatch cfg tb input))

/-- Claim C7: Try dispatch.  On an Exception in the try block's output the
handler registered for its kind runs and its output replaces the exception;
failing that the default except handler runs if present; failing that the
exception itself is re-yielded and output ends; with no Exception the else
handler's output is yielded when present, else the try block's own output. -/
theorem claim_C7_try_dispatch (attrs : List TryAttr) (input : List Value)
    (cfg : TryCfg) (tb : FDen)
    (hc : collectAttrs input attrs initTryCfg = some cfg) (ht : cfg.tryB = some tb) :
    (∀ e, firstExc? (tb input) = some e →
      (∀ h, handlerLookup (kindOf e) cfg.handlers = some h →
        Try_run attrs input = some (h input)) ∧
      (handlerLookup (kindOf e) cfg.handlers = none →
        (∀ d, cfg.dflt = some d → Try_run attrs input = some (d input)) ∧
        (cfg.dflt = none → Try_run attrs input = some [e]))) ∧
    (firstExc? (tb input) = none →
      (∀ f, cfg.elseH = some f → Try_run attrs input = some (f input)) ∧
      (cfg.elseH = none → Try_run attrs input = some (tb input))) := by
  have hrun : Try_run attrs input = some (Try_dispatch cfg tb input) := by
    simp [Try_run, hc, ht]
  constructor
  · intro e he
    constructor
    · intro h hh
      rw [hrun]; simp [Try_dispatch, he, hh]
    · intro hh
      constructor
      · intro d hd
        rw [hrun]; simp [Try_dispatch, he, hh, hd]
      · intro hd
        rw [hrun]; simp [Try_dispatch, he, hh, hd]
  · intro he
    constructor
    · intro f hf
      rw [hrun]; simp [Try_dispatch, he, hf]
    · intro hf
      rw [hrun]; simp [Try_dispatch, he, hf]

def c7Try : FDen := fun _ => [Value.exc "index"]

def c7Handler : FDen := fun _ => [Value.num 42]

def c7Else : FDen := fun _ => [Value.num 7]

def c7Attrs : List TryAttr :=
  [.tryA c7Try, .catchA (fun _ => some "index"), .thenA c7Handler, .elseA c7Else]

def c7Cfg : TryCfg :=
  { tryB := some c7Try, handlers := [("index", c7Handler)], names := ["index"],
    dflt := none, elseH := some c7Else }

def c7TryOk : FDen := fun _ => [Value.num 1]

def c7Attrs2 : List TryAttr := [.tryA c7TryOk, .elseA c7Else]

def c7Cfg2 : TryCfg :=
  { tryB := some c7TryOk, handlers := [], names := [], dflt := none, elseH := some c7Else }

theorem claim_C7_witness :
    Try_run c7Attrs [] = some (c7Handler []) ∧
    Try_run c7Attrs2 [] = some (c7Else []) := by
  constructor
  · exact (((claim_C7_try_dispatch c7Attrs [] c7Cfg c7Try rfl rfl).1
      (Value.exc "index") rfl).1 c7Handler rfl)
  · exact (((claim_C7_try_dispatch c7Attrs2 [] c7Cfg2 c7TryOk rfl rfl).2 rfl).1 c7Else rfl)

/-- The closed set of Exception kinds enumerated in spec section 3. -/
def kindSet : List String :=
  ["type", "length", "integer", "index", "key", "name", "numArgs", "empty",
   "sensibleString", "assignment", "path", "permission", "commandOutput",
   "unicode", "internal"]

/-- The kind set extended with numValues, the kind the nth builtin actually
produces (functions.py lines 173 and 178). -/
def extKindSet : List String := kindSet ++ ["numValues"]

/-- The nth builtin (functions.py lines 151-178): the index filter is
evaluated on a fork of the input; an empty index stream yields an empty
Exception, a non-Number index a type Exception, a non-integral Number an
integer Exception; otherwise index many values are skipped and the next one
is yielded, a too-short input stream yielding a numValues Exception (int of
a negative index makes the skipping range empty). -/
def nth (index : FDen) (input : List Value) : List Value :=
  match (index input).head? with
  | none => [Value.exc "empty"]
  | some v =>
    (match v with
      | .num q =>
        if q.den = 1 then
          (match (input.drop q.num.toNat).head? with
            | some w => [w]
            | none => [Value.exc "numValues"])
        else [Value.exc "integer"]
      | _ => [Value.exc "type"])

/-- Claim C8 counterexample: the nth builtin applied to a too-short input
stream produces an Exception of kind numValues, which is outside the closed
kind set of the spec. -/
theorem claim_C8_counterexample :
    nth (fun _ => [Value.num 1]) [] = [Value.exc "numValues"] ∧
      "numValues" ∉ kindSet := by
  exact ⟨rfl, by decide⟩

theorem firstExc?_mem : ∀ {l : List Value} {e : Value}, firstExc? l = some e → e ∈ l := by
  intro l
  induction l with
  | nil => intro e h; simp [firstExc?] at h
  | cons v rest ih =>
      intro e h
      by_cases hv : isException v
      · simp [firstExc?, hv] at h
        simp [h]
      · simp [firstExc?, hv] at h
        exact List.mem_cons_of_mem v (ih h)

theorem mem_takeThroughExc : ∀ {l : List Value} {v : Value}, v ∈ takeThroughExc l → v ∈ l := by
  intro l
  induction l with
  | nil => intro v h; simp [takeThroughExc] at h
  | cons w rest ih =>
      intro v h
      by_cases hw : isException w
      · simp [takeThroughExc, hw] at h
        simp [h]
      · simp [takeThroughExc, hw] at h
        rcases h with h | h
        · simp [h]
        · exact List.mem_cons_of_mem w (ih h)

theorem head?_mem {l : List Value} {v : Value} (h : l.head? = some v) : v ∈ l := by
  cases l with
  | nil => simp at h
  | cons w rest => simp at h; simp [h]

theorem badKind_cases (v : Value) (k : String) (h : badKind v = some k) :
    k = "length" ∨ k = "type" := by
  rcases v with _ | b | q | s | l | es | k2 <;>
    simp [badKind, pushOutcome] at h <;> try (exact Or.inr h.symm)
  rcases l with _ | ⟨x, _ | ⟨y, _ | ⟨z, rest⟩⟩⟩ <;> simp [badKind, pushOutcome] at h <;>
    exact Or.inl h.symm

theorem Object_run_exc_kinds (childOut : List Value) (k : String)
    (h : Value.exc k ∈ Object_run childOut) : k ∈ extKindSet := by
  rw [Object_run_eq] at h
  rcases List.mem_append.mp h with h | h
  · rcases List.mem_map.mp h with ⟨k2, hk2, heq⟩
    have heq2 : k2 = k := by simpa [Value.exc.injEq] using heq
    rcases List.mem_filterMap.mp hk2 with ⟨v, _, hv⟩
    rw [heq2] at hv
    rcases badKind_cases v k hv with h2 | h2 <;> rw [h2] <;> decide
  · simp at h

theorem addCombine_exc (a b : Value) (k : String) (h : addCombine a b = Value.exc k) :
    k = "type" := by
  cases a <;> cases b <;> simp [addCombine] at h <;> exact h.symm

theorem multiplyCombine_exc (a b : Value) (k : String)
    (h : multiplyCombine a b = Value.exc k) : k = "type" ∨ k = "integer" := by
  cases a <;> cases b <;> simp only [multiplyCombine] at h <;>
    (try split at h) <;> simp_all

theorem output_pairs_mem (l r : List Value) (o : Sum Value (Value × Value))
    (ho : o ∈ output_pairs l r) :
    (∃ v, o = Sum.inl v ∧ (v ∈ l ∨ v ∈ r)) ∨
    (∃ a b, o = Sum.inr (a, b) ∧ a ∈ l ∧ b ∈ r) := by
  unfold output_pairs at ho
  split at ho
  · simp at ho
  · split at ho
    · rcases List.mem_map.mp ho with ⟨v, hv, heq⟩
      exact Or.inl ⟨v, heq.symm, Or.inr hv⟩
    · split at ho
      · rcases List.mem_map.mp ho with ⟨v, hv, heq⟩
        exact Or.inl ⟨v, heq.symm, Or.inl hv⟩
      · rcases List.mem_map.mp ho with ⟨i, _, heq⟩
        refine Or.inr ⟨_, _, heq.symm, ?_, ?_⟩ <;> exact List.get_mem _ _ _

theorem Add_run_exc (evalL evalR : FDen) (input : List Value) (k : String)
    (h : Value.exc k ∈ Add_run evalL evalR input) :
    k ∈ extKindSet ∨ Value.exc k ∈ evalL input ∨ Value.exc k ∈ evalR input := by
  rcases List.mem_map.mp h with ⟨o, ho, heq⟩
  rcases output_pairs_mem _ _ o ho with ⟨v, rfl, hv⟩ | ⟨a, b, rfl, ha, hb⟩
  · have : v = Value.exc k := heq
    subst this
    exact Or.inr hv
  · have : addCombine a b = Value.exc k := heq
    rw [addCombine_exc a b k this]
    exact Or.inl (by decide)

theorem Multiply_run_exc (evalL evalR : FDen) (input : List Value) (k : String)
    (h : Value.exc k ∈ Multiply_run evalL evalR input) :
    k ∈ extKindSet ∨ Value.exc k ∈ evalL input ∨ Value.exc k ∈ evalR input := by
  rcases List.mem_map.mp h with ⟨o, ho, heq⟩
  rcases output_pairs_mem _ _ o ho with ⟨v, rfl, hv⟩ | ⟨a, b, rfl, ha, hb⟩
  · have : v = Value.exc k := heq
    subst this
    exact Or.inr hv
  · have : multiplyCombine a b = Value.exc k := heq
    rcases multiplyCombine_exc a b k this with h2 | h2 <;> rw [h2] <;>
      exact Or.inl (by decide)

theorem Name_run_raw_exc (name : String) (cat : Catalog) (locals : NS)
    (input : List Value) (k : String)
    (h : Value.exc k ∈ Name_run_raw name cat locals input) :
    k ∈ extKindSet ∨
      (∃ seq, nsLookup name locals = some seq ∧ Value.exc k ∈ seq) ∨
      (∃ builtin, get_builtin cat name 0 = some builtin ∧ Value.exc k ∈ builtin input) := by
  rcases hl : nsLookup name locals with _ | seq
  · rcases hb : get_builtin cat name 0 with _ | builtin
    · have hred : Name_run_raw name cat locals input =
          (if (catLookup name cat).isSome then [Value.exc "numArgs"]
            else [Value.exc "name"]) := by
        simp [Name_run_raw, hl, hb]
      rw [hred] at h
      split at h <;> simp at h <;> rw [h] <;> exact Or.inl (by decide)
    · have hred : Name_run_raw name cat locals input = builtin input := by
        simp [Name_run_raw, hl, hb]
      rw [hred] at h
      exact Or.inr (Or.inr ⟨builtin, rfl, h⟩)
  · have hred : Name_run_raw name cat locals input = seq := by
      simp [Name_run_raw, hl]
    rw [hred] at h
    exact Or.inr (Or.inl ⟨seq, rfl, h⟩)

theorem Assign_thrown_exc (target : AssignTarget) (right : FDen) (input : List Value)
    (locals globals : NS) (k : String)
    (h : (Assign_run_raw target right input locals globals).thrown = some (Value.exc k)) :
    k ∈ extKindSet ∨ Value.exc k ∈ right input := by
  rcases target with s | os | _
  · rcases hf : firstExc? (right input) with _ | e
    · have hred : (Assign_run_raw (.name s) right input locals globals).thrown = none := by
        simp [Assign_run_raw, hf]
      rw [hred] at h
      simp at h
    · have hred : (Assign_run_raw (.name s) right input locals globals).thrown = some e := by
        simp [Assign_run_raw, hf]
      rw [hred] at h
      have he : e = Value.exc k := by simpa using h
      rw [he] at hf
      exact Or.inr (firstExc?_mem hf)
  · rcases os with _ | s
    · have hred : (Assign_run_raw (.globalVar none) right input locals globals).thrown =
          some (Value.exc "sensibleString") := by
        simp [Assign_run_raw]
      rw [hred] at h
      have he : k = "sensibleString" := by simpa using h.symm
      rw [he]
      exact Or.inl (by decide)
    · rcases hf : firstExc? (right input) with _ | e
      · have hred : (Assign_run_raw (.globalVar (some s)) right input locals globals).thrown =
            none := by
          simp [Assign_run_raw, hf]
        rw [hred] at h
        simp at h
      · have hred : (Assign_run_raw (.globalVar (some s)) right input locals globals).thrown =
            some e := by
          simp [Assign_run_raw, hf]
        rw [hred] at h
        have he : e = Value.exc k := by simpa using h
        rw [he] at hf
        exact Or.inr (firstExc?_mem hf)
  · have hred : (Assign_run_raw .other right input locals globals).thrown =
        some (Value.exc "assignment") := rfl
    rw [hred] at h
    have he : k = "assignment" := by simpa using h.symm
    rw [he]
    exact Or.inl (by decide)

theorem run_raw_exc (run : List Value → RunGen) (input : List Value) (k : String)
    (h : Event.push (Value.exc k) ∈ (run_raw run input).events) :
    k ∈ extKindSet ∨ Value.exc k ∈ input ∨
      Value.exc k ∈ (run (takeThroughExc input)).yields := by
  rcases List.mem_append.mp h with h | h
  · have hh : Event.push (Value.exc k) ∈ helperEvents (run (takeThroughExc input)) := h
    unfold helperEvents at hh
    split at hh
    · rcases List.mem_map.mp hh with ⟨v, hv, heq⟩
      have hvk : v = Value.exc k := by simpa [Event.push.injEq] using heq
      rw [hvk] at hv
      exact Or.inr (Or.inr (mem_takeThroughExc hv))
    · split at hh
      · rcases List.mem_append.mp hh with h2 | h2
        · rcases List.mem_map.mp h2 with ⟨v, hv, heq⟩
          have hvk : v = Value.exc k := by simpa [Event.push.injEq] using heq
          rw [hvk] at hv
          exact Or.inr (Or.inr hv)
        · have : k = "internal" := by
            simp at h2
            exact h2
          rw [this]
          exact Or.inl (by decide)
      · rcases List.mem_map.mp hh with ⟨v, hv, heq⟩
        have hvk : v = Value.exc k := by simpa [Event.push.injEq] using heq
        rw [hvk] at hv
        exact Or.inr (Or.inr hv)
  · have hm : Event.push (Value.exc k) ∈ mainEvents input := h
    unfold mainEvents at hm
    rcases hf : firstExc? input with _ | e
    · rw [hf] at hm
      simp at hm
    · rw [hf] at hm
      have he : e = Value.exc k := by
        simp at hm
        exact hm.symm
      rw [he] at hf
      exact Or.inr (Or.inl (firstExc?_mem hf))

theorem nth_exc (index : FDen) (input : List Value) (k : String)
    (h : Value.exc k ∈ nth index input) :
    k ∈ extKindSet ∨ Value.exc k ∈ input ∨ Value.exc k ∈ index input := by
  unfold nth at h
  rcases hh : (index input).head? with _ | v
  · rw [hh] at h
    simp at h
    rw [h]
    exact Or.inl (by decide)
  · rw [hh] at h
    rcases v with _ | b | q | s | l | es | k2
    · simp at h
      rw [h]
      exact Or.inl (by decide)
    · simp at h
      rw [h]
      exact Or.inl (by decide)
    · simp only at h
      split at h
      · rcases hd : (input.drop q.num.toNat).head? with _ | w <;> rw [hd] at h <;> simp at h
        · rw [h]
          exact Or.inl (by decide)
        · rw [← h] at hd
          exact Or.inr (Or.inl (List.drop_subset _ _ (head?_mem hd)))
      · simp at h
        rw [h]
        exact Or.inl (by decide)
    · simp at h
      rw [h]
      exact Or.inl (by decide)
    · simp at h
      rw [h]
      exact Or.inl (by decide)
    · simp at h
      rw [h]
      exact Or.inl (by decide)
    · simp at h
      rw [h]
      exact Or.inl (by decide)


/-- Whether an Exception of the given kind occurs inside a value at any
nesting depth (the value itself, an Array element, an Object key or entry
value).  Used to account for Exception values that subscripting digs out of
the containers of the input stream. -/
def hasExcKind (k : String) : Value → Bool
  | .exc k2 => k2 = k
  | .arr [] => false
  | .arr (v :: rest) => hasExcKind k v || hasExcKind k (.arr rest)
  | .obj [] => false
  | .obj ((k2, v) :: rest) =>
      hasExcKind k k2 || hasExcKind k v || hasExcKind k (.obj rest)
  | _ => false

theorem hasExcKind_self (k : String) : hasExcKind k (Value.exc k) = true := by
  simp [hasExcKind]

theorem hasExcKind_arr {k : String} {v : Value} :
    ∀ {elems : List Value}, v ∈ elems → hasExcKind k v = true →
      hasExcKind k (Value.arr elems) = true := by
  intro elems
  induction elems with
  | nil => intro h; simp at h
  | cons w rest ih =>
      intro hmem hv
      rcases List.mem_cons.mp hmem with rfl | hmem
      · simp [hasExcKind, hv]
      · simp [hasExcKind, ih hmem hv]

theorem hasExcKind_obj {k : String} {k2 v : Value} :
    ∀ {es : List (Value × Value)}, (k2, v) ∈ es → hasExcKind k v = true →
      hasExcKind k (Value.obj es) = true := by
  intro es
  induction es with
  | nil => intro h; simp at h
  | cons p rest ih =>
      obtain ⟨p1, p2⟩ := p
      intro hmem hv
      rcases List.mem_cons.mp hmem with heq | hmem
      · obtain ⟨h1, h2⟩ := Prod.mk.injEq .. ▸ heq
        subst h1; subst h2
        simp [hasExcKind, hv]
      · simp [hasExcKind, ih hmem hv]

/-- Python list indexing l[i]: non-negative indices from the front, negative
indices from the back, IndexError (none) when out of range. -/
def pyIndex {α : Type} (l : List α) (i : Int) : Option α :=
  if 0 ≤ i then l.get? i.toNat
  else if 0 ≤ i + l.length then l.get? (i + l.length).toNat
  else none

theorem pyIndex_mem {α : Type} {l : List α} {i : Int} {a : α}
    (h : pyIndex l i = some a) : a ∈ l := by
  unfold pyIndex at h
  split at h
  · exact List.get?_mem h
  · split at h
    · exact List.get?_mem h
    · simp at h

/-- Values of a stream strictly before its first Exception: what the main
loop of wrap_builtin (functions.py lines 49-54) forwards into the bridge. -/
def takeBeforeExc : List Value → List Value
  | [] => []
  | v :: rest => if isException v then [] else v :: takeBeforeExc rest

/-- Modelled from the spec: Python bool() of a jqsh value (values.py not
among the sources); per spec section 4.2 every value is truthy except
Boolean false, Null, numeric zero and empty String, Array, Object.  Never
applied to Exception values (Conditional.run re-yields those first). -/
def truthy : Value → Bool
  | .null => false
  | .bool b => b
  | .num q => decide (q ≠ 0)
  | .str s => !s.isEmpty
  | .arr l => !l.isEmpty
  | .obj es => !es.isEmpty
  | .exc _ => true

/-- Filter.run of the base class (filter.py lines 40-46): the empty
generator. -/
def Filter_run : List Value → List Value := fun _ => []

/-- Parens.run (filter.py lines 96-97): the child's output unchanged. -/
def Parens_run (child : FDen) (input : List Value) : List Value := child input

/-- Array.run (filter.py lines 103-104): one Array value holding the
child's full output. -/
def Array_run (child : FDen) (input : List Value) : List Value :=
  [Value.arr (child input)]

/-- NumberLiteral.run (filter.py lines 262-263). -/
def NumberLiteral_run (n : ℚ) : List Value → List Value := fun _ => [Value.num n]

/-- StringLiteral.run (filter.py lines 303-304). -/
def StringLiteral_run (s : String) : List Value → List Value := fun _ => [Value.str s]

/-- Pipe.run (filter.py lines 337-339): the right operand evaluated against
the left operand's output channel. -/
def Pipe_run (evalL evalR : FDen) (input : List Value) : List Value :=
  evalR (evalL input)

/-- Comma.run (filter.py lines 474-478): all of the left fork's output, then
the concurrently started and buffered right fork's output. -/
def Comma_run (evalL evalR : FDen) (input : List Value) : List Value :=
  evalL input ++ evalR input

/-- Semicolon.run_raw (filter.py lines 531-539): the left fork is evaluated
only for the namespaces handed to the right fork; the values pushed
downstream are exactly the right operand's output. -/
def Semicolon_run_raw (evalL evalR : FDen) (input : List Value) : List Value :=
  evalR input

/-- Pair.run (filter.py lines 518-526): the right operand is evaluated to
exactly one value (an empty right stream yields an empty Exception), then
each left value is paired with it in a 2-element Array. -/
def Pair_run (evalL evalR : FDen) (input : List Value) : List Value :=
  match (evalR input).head? with
  | none => [Value.exc "empty"]
  | some r => (evalL input).map fun v => Value.arr [v, r]

theorem Filter_run_exc (input : List Value) (k : String)
    (h : Value.exc k ∈ Filter_run input) : k ∈ extKindSet := by
  simp [Filter_run] at h

theorem Parens_run_exc (child : FDen) (input : List Value) (k : String)
    (h : Value.exc k ∈ Parens_run child input) :
    k ∈ extKindSet ∨ Value.exc k ∈ child input := Or.inr h

theorem Array_run_exc (child : FDen) (input : List Value) (k : String)
    (h : Value.exc k ∈ Array_run child input) : k ∈ extKindSet := by
  simp [Array_run] at h

theorem NumberLiteral_run_exc (n : ℚ) (input : List Value) (k : String)
    (h : Value.exc k ∈ NumberLiteral_run n input) : k ∈ extKindSet := by
  simp [NumberLiteral_run] at h

theorem StringLiteral_run_exc (s : String) (input : List Value) (k : String)
    (h : Value.exc k ∈ StringLiteral_run s input) : k ∈ extKindSet := by
  simp [StringLiteral_run] at h

theorem Pipe_run_exc (evalL evalR : FDen) (input : List Value) (k : String)
    (h : Value.exc k ∈ Pipe_run evalL evalR input) :
    k ∈ extKindSet ∨ Value.exc k ∈ evalR (evalL input) := Or.inr h

theorem Comma_run_exc (evalL evalR : FDen) (input : List Value) (k : String)
    (h : Value.exc k ∈ Comma_run evalL evalR input) :
    k ∈ extKindSet ∨ Value.exc k ∈ evalL input ∨ Value.exc k ∈ evalR input := by
  rcases List.mem_append.mp h with h | h
  · exact Or.inr (Or.inl h)
  · exact Or.inr (Or.inr h)

theorem Semicolon_run_raw_exc (evalL evalR : FDen) (input : List Value) (k : String)
    (h : Value.exc k ∈ Semicolon_run_raw evalL evalR input) :
    k ∈ extKindSet ∨ Value.exc k ∈ evalR input := Or.inr h

theorem Pair_run_exc (evalL evalR : FDen) (input : List Value) (k : String)
    (h : Value.exc k ∈ Pair_run evalL evalR input) : k ∈ extKindSet := by
  unfold Pair_run at h
  rcases hh : (evalR input).head? with _ | r
  · rw [hh] at h
    simp at h
    rw [h]
    decide
  · rw [hh] at h
    simp only at h
    rcases List.mem_map.mp h with ⟨v, hv, heq⟩
    exact absurd heq (by simp)

/-- One (keyword, sub-filter) attribute of a Conditional (filter.py lines
123-155): an if/elif/elseIf condition, a then branch, an else branch, or an
unknown keyword (which raises NotImplementedError, filter.py line 155). -/
inductive CondAttr : Type where
  | ifA (f : FDen) : CondAttr
  | thenA (f : FDen) : CondAttr
  | elseA (f : FDen) : CondAttr
  | otherA : CondAttr

/-- Conditional.run (filter.py lines 133-155), with the truth value of the
last evaluated condition as explicit state (none before any condition: the
Python local conditional is then unbound and reading it raises NameError).
An if/elif clause evaluates its condition on a fork to exactly one value: an
empty stream yields an empty Exception and stops, an Exception value is
re-yielded and stops, otherwise its truthiness is recorded; a then (else)
clause yields its branch's full output on the remaining input when the
recorded condition is true (false), and the walk continues; an unknown
clause raises.  Raised Python exceptions are recorded in the raises flag
(Filter.run_raw converts them into internal Exceptions). -/
def Conditional_run : List CondAttr → Option Bool → List Value → RunGen
  | [], _, _ => { yields := [], raises := false }
  | attr :: rest, cond?, input =>
    match attr with
    | .ifA f =>
      (match (f input).head? with
        | none => { yields := [Value.exc "empty"], raises := false }
        | some v =>
          if isException v then { yields := [v], raises := false }
          else Conditional_run rest (some (truthy v)) input)
    | .thenA f =>
      (match cond? with
        | none => { yields := [], raises := true }
        | some b =>
          if b then
            { yields := f input ++ (Conditional_run rest cond? input).yields,
              raises := (Conditional_run rest cond? input).raises }
          else Conditional_run rest cond? input)
    | .elseA f =>
      (match cond? with
        | none => { yields := [], raises := true }
        | some b =>
          if b then Conditional_run rest cond? input
          else
            { yields := f input ++ (Conditional_run rest cond? input).yields,
              raises := (Conditional_run rest cond? input).raises })
    | .otherA => { yields := [], raises := true }

theorem Conditional_run_exc :
    ∀ (attrs : List CondAttr) (cond? : Option Bool) (input : List Value) (k : String),
      Value.exc k ∈ (Conditional_run attrs cond? input).yields →
      k ∈ extKindSet ∨
        ∃ f, (CondAttr.ifA f ∈ attrs ∨ CondAttr.thenA f ∈ attrs ∨
          CondAttr.elseA f ∈ attrs) ∧ Value.exc k ∈ f input := by
  intro attrs
  induction attrs with
  | nil => intro cond? input k h; simp [Conditional_run] at h
  | cons attr rest ih =>
      intro cond? input k h
      have hlift : ∀ f, (CondAttr.ifA f ∈ rest ∨ CondAttr.thenA f ∈ rest ∨
          CondAttr.elseA f ∈ rest) → (CondAttr.ifA f ∈ attr :: rest ∨
          CondAttr.thenA f ∈ attr :: rest ∨ CondAttr.elseA f ∈ attr :: rest) := by
        intro f hf
        rcases hf with hf | hf | hf
        · exact Or.inl (List.mem_cons_of_mem _ hf)
        · exact Or.inr (Or.inl (List.mem_cons_of_mem _ hf))
        · exact Or.inr (Or.inr (List.mem_cons_of_mem _ hf))
      have hrest : Value.exc k ∈ (Conditional_run rest cond? input).yields →
          k ∈ extKindSet ∨ ∃ f, (CondAttr.ifA f ∈ attr :: rest ∨
            CondAttr.thenA f ∈ attr :: rest ∨ CondAttr.elseA f ∈ attr :: rest) ∧
            Value.exc k ∈ f input := by
        intro h2
        rcases ih cond? input k h2 with h3 | ⟨f2, hf2, hm⟩
        · exact Or.inl h3
        · exact Or.inr ⟨f2, hlift f2 hf2, hm⟩
      cases attr with
      | ifA f =>
          rcases hh : (f input).head? with _ | v
          · simp only [Conditional_run, hh] at h
            simp at h
            rw [h]
            exact Or.inl (by decide)
          · by_cases hv : isException v
            · simp only [Conditional_run, hh, hv, if_true] at h
              simp at h
              rw [← h] at hh
              exact Or.inr ⟨f, Or.inl (List.mem_cons_self _ _), head?_mem hh⟩
            · simp only [Conditional_run, hh, hv, if_false] at h
              rcases ih (some (truthy v)) input k h with h3 | ⟨f2, hf2, hm⟩
              · exact Or.inl h3
              · exact Or.inr ⟨f2, hlift f2 hf2, hm⟩
      | thenA f =>
          rcases cond? with _ | b
          · simp [Conditional_run] at h
          · cases b with
            | true =>
                simp only [Conditional_run, if_true] at h
                rcases List.mem_append.mp h with h2 | h2
                · exact Or.inr ⟨f, Or.inr (Or.inl (List.mem_cons_self _ _)), h2⟩
                · exact hrest h2
            | false =>
                simp only [Conditional_run] at h
                exact hrest h
      | elseA f =>
          rcases cond? with _ | b
          · simp [Conditional_run] at h
          · cases b with
            | true =>
                simp only [Conditional_run, if_true] at h
                exact hrest h
            | false =>
                simp only [Conditional_run] at h
                rcases List.mem_append.mp h with h2 | h2
                · exact Or.inr ⟨f, Or.inr (Or.inr (List.mem_cons_self _ _)), h2⟩
                · exact hrest h2
      | otherA =>
          simp [Conditional_run] at h

theorem handlerLookup_mem :
    ∀ {hs : List (String × FDen)} {n : String} {g : FDen},
      handlerLookup n hs = some g → ∃ n2, (n2, g) ∈ hs := by
  intro hs
  induction hs with
  | nil => intro n g h; simp [handlerLookup] at h
  | cons p rest ih =>
      intro n g h
      obtain ⟨p1, p2⟩ := p
      by_cases hq : p1 = n
      · simp [handlerLookup, hq] at h
        exact ⟨p1, by rw [h]; exact List.mem_cons_self _ _⟩
      · simp [handlerLookup, hq] at h
        obtain ⟨n2, hm⟩ := ih h
        exact ⟨n2, List.mem_cons_of_mem _ hm⟩

theorem handlerInsert_mem :
    ∀ (hs : List (String × FDen)) (n : String) (f : FDen) (n2 : String) (g : FDen),
      (n2, g) ∈ handlerInsert n f hs → g = f ∨ (n2, g) ∈ hs := by
  intro hs
  induction hs with
  | nil =>
      intro n f n2 g hm
      simp [handlerInsert] at hm
      exact Or.inl hm.2
  | cons p rest ih =>
      intro n f n2 g hm
      obtain ⟨p1, p2⟩ := p
      by_cases hq : p1 = n
      · simp only [handlerInsert, hq, if_true] at hm
        rcases List.mem_cons.mp hm with heq | hm2
        · simp at heq
          exact Or.inl heq.2
        · exact Or.inr (List.mem_cons_of_mem _ hm2)
      · simp only [handlerInsert, hq, if_false] at hm
        rcases List.mem_cons.mp hm with heq | hm2
        · exact Or.inr (heq ▸ List.mem_cons_self _ _)
        · rcases ih n f n2 g hm2 with h1 | h1
          · exact Or.inl h1
          · exact Or.inr (List.mem_cons_of_mem _ h1)

theorem foldl_handlerInsert_mem :
    ∀ (names : List String) (hs : List (String × FDen)) (f : FDen) (n2 : String) (g : FDen),
      (n2, g) ∈ names.foldl (fun acc nm => handlerInsert nm f acc) hs →
      g = f ∨ (n2, g) ∈ hs := by
  intro names
  induction names with
  | nil => intro hs f n2 g hm; exact Or.inr hm
  | cons nm rest ih =>
      intro hs f n2 g hm
      simp only [List.foldl_cons] at hm
      rcases ih _ f n2 g hm with h1 | h1
      · exact Or.inl h1
      · exact handlerInsert_mem hs nm f n2 g h1

theorem collectAttrs_sources (input : List Value) :
    ∀ (attrs : List TryAttr) (cfg0 cfg : TryCfg),
      collectAttrs input attrs cfg0 = some cfg →
      (∀ f, cfg.tryB = some f → cfg0.tryB = some f ∨ TryAttr.tryA f ∈ attrs) ∧
      (∀ n f, (n, f) ∈ cfg.handlers →
        (∃ n2, (n2, f) ∈ cfg0.handlers) ∨ TryAttr.thenA f ∈ attrs) ∧
      (∀ f, cfg.dflt = some f → cfg0.dflt = some f ∨ TryAttr.exceptA f ∈ attrs) ∧
      (∀ f, cfg.elseH = some f → cfg0.elseH = some f ∨ TryAttr.elseA f ∈ attrs) := by
  intro attrs
  induction attrs with
  | nil =>
      intro cfg0 cfg hc
      simp [collectAttrs] at hc
      subst hc
      exact ⟨fun f hf => Or.inl hf, fun n f hm => Or.inl ⟨n, hm⟩,
        fun f hf => Or.inl hf, fun f hf => Or.inl hf⟩
  | cons attr rest ih =>
      intro cfg0 cfg hc
      cases attr with
      | tryA f0 =>
          simp only [collectAttrs] at hc
          obtain ⟨h1, h2, h3, h4⟩ := ih _ _ hc
          refine ⟨?_, ?_, ?_, ?_⟩
          · intro f hf
            rcases h1 f hf with h5 | h5
            · simp at h5
              exact Or.inr (h5 ▸ List.mem_cons_self _ _)
            · exact Or.inr (List.mem_cons_of_mem _ h5)
          · intro n f hm
            rcases h2 n f hm with h5 | h5
            · exact Or.inl h5
            · exact Or.inr (List.mem_cons_of_mem _ h5)
          · intro f hf
            rcases h3 f hf with h5 | h5
            · exact Or.inl h5
            · exact Or.inr (List.mem_cons_of_mem _ h5)
          · intro f hf
            rcases h4 f hf with h5 | h5
            · exact Or.inl h5
            · exact Or.inr (List.mem_cons_of_mem _ h5)
      | catchA g =>
          simp only [collectAttrs] at hc
          rcases hg : g input with _ | s
          · rw [hg] at hc
            simp at hc
          · rw [hg] at hc
            simp only at hc
            obtain ⟨h1, h2, h3, h4⟩ := ih _ _ hc
            refine ⟨?_, ?_, ?_, ?_⟩
            · intro f hf
              rcases h1 f hf with h5 | h5
              · exact Or.inl h5
              · exact Or.inr (List.mem_cons_of_mem _ h5)
            · intro n f hm
              rcases h2 n f hm with h5 | h5
              · exact Or.inl h5
              · exact Or.inr (List.mem_cons_of_mem _ h5)
            · intro f hf
              rcases h3 f hf with h5 | h5
              · exact Or.inl h5
              · exact Or.inr (List.mem_cons_of_mem _ h5)
            · intro f hf
              rcases h4 f hf with h5 | h5
              · exact Or.inl h5
              · exact Or.inr (List.mem_cons_of_mem _ h5)
      | thenA f0 =>
          simp only [collectAttrs] at hc
          obtain ⟨h1, h2, h3, h4⟩ := ih _ _ hc
          refine ⟨?_, ?_, ?_, ?_⟩
          · intro f hf
            rcases h1 f hf with h5 | h5
            · exact Or.inl h5
            · exact Or.inr (List.mem_cons_of_mem _ h5)
          · intro n f hm
            rcases h2 n f hm with ⟨n2, h5⟩ | h5
            · rcases foldl_handlerInsert_mem _ _ _ _ _ h5 with h6 | h6
              · exact Or.inr (h6 ▸ List.mem_cons_self _ _)
              · exact Or.inl ⟨n2, h6⟩
            · exact Or.inr (List.mem_cons_of_mem _ h5)
          · intro f hf
            rcases h3 f hf with h5 | h5
            · exact Or.inl h5
            · exact Or.inr (List.mem_cons_of_mem _ h5)
          · intro f hf
            rcases h4 f hf with h5 | h5
            · exact Or.inl h5
            · exact Or.inr (List.mem_cons_of_mem _ h5)
      | exceptA f0 =>
          simp only [collectAttrs] at hc
          obtain ⟨h1, h2, h3, h4⟩ := ih _ _ hc
          refine ⟨?_, ?_, ?_, ?_⟩
          · intro f hf
            rcases h1 f hf with h5 | h5
            · exact Or.inl h5
            · exact Or.inr (List.mem_cons_of_mem _ h5)
          · intro n f hm
            rcases h2 n f hm with h5 | h5
            · exact Or.inl h5
            · exact Or.inr (List.mem_cons_of_mem _ h5)
          · intro f hf
            rcases h3 f hf with h5 | h5
            · simp at h5
              exact Or.inr (h5 ▸ List.mem_cons_self _ _)
            · exact Or.inr (List.mem_cons_of_mem _ h5)
          · intro f hf
            rcases h4 f hf with h5 | h5
            · exact Or.inl h5
            · exact Or.inr (List.mem_cons_of_mem _ h5)
      | elseA f0 =>
          simp only [collectAttrs] at hc
          obtain ⟨h1, h2, h3, h4⟩ := ih _ _ hc
          refine ⟨?_, ?_, ?_, ?_⟩
          · intro f hf
            rcases h1 f hf with h5 | h5
            · exact Or.inl h5
            · exact Or.inr (List.mem_cons_of_mem _ h5)
          · intro n f hm
            rcases h2 n f hm with h5 | h5
            · exact Or.inl h5
            · exact Or.inr (List.mem_cons_of_mem _ h5)
          · intro f hf
            rcases h3 f hf with h5 | h5
            · exact Or.inl h5
            · exact Or.inr (List.mem_cons_of_mem _ h5)
          · intro f hf
            rcases h4 f hf with h5 | h5
            · simp at h5
              exact Or.inr (h5 ▸ List.mem_cons_self _ _)
            · exact Or.inr (List.mem_cons_of_mem _ h5)

theorem Try_run_exc (attrs : List TryAttr) (input out : List Value) (k : String)
    (hrun : Try_run attrs input = some out) (h : Value.exc k ∈ out) :
    k ∈ extKindSet ∨
      ∃ f, (TryAttr.tryA f ∈ attrs ∨ TryAttr.thenA f ∈ attrs ∨
        TryAttr.exceptA f ∈ attrs ∨ TryAttr.elseA f ∈ attrs) ∧
        Value.exc k ∈ f input := by
  unfold Try_run at hrun
  rcases hcol : collectAttrs input attrs initTryCfg with _ | cfg
  · rw [hcol] at hrun
    simp at hrun
    rw [← hrun] at h
    simp at h
    rw [h]
    exact Or.inl (by decide)
  · have hrun2 : (match cfg.tryB with
        | none => none
        | some tb => some (Try_dispatch cfg tb input)) = some out := by
      rw [hcol] at hrun
      exact hrun
    rcases htb : cfg.tryB with _ | tb
    · rw [htb] at hrun2
      simp at hrun2
    · rw [htb] at hrun2
      obtain ⟨hsrc1, hsrc2, hsrc3, hsrc4⟩ :=
        collectAttrs_sources input attrs initTryCfg cfg hcol
      have htba : TryAttr.tryA tb ∈ attrs := by
        rcases hsrc1 tb htb with h1 | h1
        · simp [initTryCfg] at h1
        · exact h1
      have hout : out = Try_dispatch cfg tb input := by
        have h3 : some (Try_dispatch cfg tb input) = some out := hrun2
        simpa using h3.symm
      rw [hout] at h
      simp only [Try_dispatch] at h
      rcases hf : firstExc? (tb input) with _ | e
      · rw [hf] at h
        dsimp only at h
        rcases hel : cfg.elseH with _ | f
        · rw [hel] at h
          dsimp only at h
          exact Or.inr ⟨tb, Or.inl htba, h⟩
        · rw [hel] at h
          dsimp only at h
          have helse : TryAttr.elseA f ∈ attrs := by
            rcases hsrc4 f hel with h1 | h1
            · simp [initTryCfg] at h1
            · exact h1
          exact Or.inr ⟨f, Or.inr (Or.inr (Or.inr helse)), h⟩
      · rw [hf] at h
        dsimp only at h
        rcases hl : handlerLookup (kindOf e) cfg.handlers with _ | hh
        · rw [hl] at h
          dsimp only at h
          rcases hd : cfg.dflt with _ | d
          · rw [hd] at h
            dsimp only at h
            simp at h
            rw [← h] at hf
            exact Or.inr ⟨tb, Or.inl htba, firstExc?_mem hf⟩
          · rw [hd] at h
            dsimp only at h
            have hexc : TryAttr.exceptA d ∈ attrs := by
              rcases hsrc3 d hd with h1 | h1
              · simp [initTryCfg] at h1
              · exact h1
            exact Or.inr ⟨d, Or.inr (Or.inr (Or.inl hexc)), h⟩
        · rw [hl] at h
          dsimp only at h
          have hthen : TryAttr.thenA hh ∈ attrs := by
            obtain ⟨n2, hmem⟩ := handlerLookup_mem hl
            rcases hsrc2 n2 hh hmem with ⟨n3, h1⟩ | h1
            · simp [initTryCfg] at h1
            · exact h1
          exact Or.inr ⟨hh, Or.inr (Or.inl hthen), h⟩

theorem entryValue?_mem :
    ∀ {es : List (Value × Value)} {key w : Value},
      entryValue? key es = some w → ∃ k2, (k2, w) ∈ es := by
  intro es
  induction es with
  | nil => intro key w h; simp [entryValue?] at h
  | cons p rest ih =>
      intro key w h
      obtain ⟨p1, p2⟩ := p
      by_cases hb : Value.beq p1 key
      · simp [entryValue?, hb] at h
        exact ⟨p1, by rw [h]; exact List.mem_cons_self _ _⟩
      · simp [entryValue?, hb] at h
        obtain ⟨k2, hm⟩ := ih h
        exact ⟨k2, List.mem_cons_of_mem _ hm⟩

/-- The subscripting loop of Apply.run_raw (filter.py lines 404-427): each
input value is looked up under the key — Object lookup (a missing key is a
key Exception and the end of output), Array indexing by an integral Number
(out of range is an index Exception, non-integral an integer Exception,
non-Number key a type Exception), anything else a type Exception; every
Exception ends the output. -/
def applySubscriptLoop (key : Value) : List Value → List Value
  | [] => []
  | v :: rest =>
    match v with
    | .obj entries =>
      (match entryValue? key entries with
        | some w => w :: applySubscriptLoop key rest
        | none => [Value.exc "key"])
    | .arr elems =>
      (match key with
        | .num q =>
          if q.den = 1 then
            (match pyIndex elems q.num with
              | some w => w :: applySubscriptLoop key rest
              | none => [Value.exc "index"])
          else [Value.exc "integer"]
        | _ => [Value.exc "type"])
    | _ => [Value.exc "type"]

/-- The subscripting case of Apply.run_raw (filter.py lines 396-430): the
key filter is evaluated on a fork to exactly one value (an empty key stream
is an empty Exception), then the loop runs over the remaining input. -/
def applySubscript (keyFilter : FDen) (input : List Value) : List Value :=
  match (keyFilter input).head? with
  | none => [Value.exc "empty"]
  | some key => applySubscriptLoop key input

/-- Modelled from the spec: what the external process invoked by
Command.run_command (filter.py lines 556-576) amounts to — a missing
executable (FileNotFoundError), a denied one (PermissionError), an
undecodable or incomplete output stream, or a decoded sequence of parsed
output values (spec section 6). -/
inductive CommandResult : Type where
  | missing : CommandResult
  | denied : CommandResult
  | undecodable : CommandResult
  | output (vals : List Value) : CommandResult

/-- Command.run_command (filter.py lines 556-576): a missing executable is a
path Exception, a denied one a permission Exception, an undecodable or
syntactically incomplete output stream a commandOutput Exception, and a
decoded stream is yielded as parsed. -/
def run_command : CommandResult → List Value
  | .missing => [Value.exc "path"]
  | .denied => [Value.exc "permission"]
  | .undecodable => [Value.exc "commandOutput"]
  | .output vals => vals

/-- Command.run (filter.py lines 578-585): the command name is resolved by
sensible_string on a fork (failure is a sensibleString Exception), then
run_command's output is yielded. -/
def Command_run (name? : Option String) (res : CommandResult) : List Value :=
  match name? with
  | none => [Value.exc "sensibleString"]
  | some _ => run_command res

/-- The resolution of the overloaded dot of Apply.run_raw (filter.py lines
387-457): identity (all-empty attributes), decimal-number fusion of two
adjacent number literals (carrying the denoted decimal; it yields no
Exceptions), subscripting, a Command invocation (its argv resolved to some
name vector or failed), or a named-builtin call (its name resolved or
failed, called at the argument count of the trailing operands). -/
inductive ApplyForm : Type where
  | identity : ApplyForm
  | decimalNum (q : ℚ) : ApplyForm
  | subscript (keyFilter : FDen) : ApplyForm
  | command (name? : Option String) (res : CommandResult) : ApplyForm
  | builtinCall (name? : Option String) (cat : Catalog) (numArgs : Nat) : ApplyForm

/-- Apply.run_raw (filter.py lines 387-457): identity forwards the input
values through output_channel.pull; the decimal case pushes one Number; the
subscript case runs the lookup loop; the command case defers to Command's
machinery with a sensibleString Exception for an unresolvable argv; the
builtin case resolves like a bare Name at the trailing-operand count. -/
def Apply_run_raw : ApplyForm → List Value → List Value
  | .identity, input => input
  | .decimalNum q, _ => [Value.num q]
  | .subscript keyFilter, input => applySubscript keyFilter input
  | .command name? res, _ => Command_run name? res
  | .builtinCall name? cat numArgs, input =>
    (match name? with
      | none => [Value.exc "sensibleString"]
      | some nm =>
        match get_builtin cat nm numArgs with
        | some builtin => builtin input
        | none =>
          if (catLookup nm cat).isSome then [Value.exc "numArgs"]
          else [Value.exc "name"])

/-- The Exception values an Apply form passes through rather than
introduces: an external command's decoded output, or the output of the
builtin it resolved to. -/
def applyPassThrough (form : ApplyForm) (input : List Value) (k : String) : Prop :=
  match form with
  | .command _ (CommandResult.output vals) => Value.exc k ∈ vals
  | .builtinCall (some nm) cat numArgs =>
    ∃ builtin, get_builtin cat nm numArgs = some builtin ∧ Value.exc k ∈ builtin input
  | _ => False

/-- GlobalVariable.run_raw (filter.py lines 619-633): the variable name is
resolved by sensible_string (failure is a sensibleString Exception); a bound
name replays its captured sequence from the global namespace, an unbound one
is a name Exception. -/
def GlobalVariable_run_raw (name? : Option String) (globals : NS) : List Value :=
  match name? with
  | none => [Value.exc "sensibleString"]
  | some nm =>
    (match nsLookup nm globals with
      | some seq => seq
      | none => [Value.exc "name"])

theorem applySubscriptLoop_exc :
    ∀ (key : Value) (vals : List Value) (k : String),
      Value.exc k ∈ applySubscriptLoop key vals →
      k ∈ extKindSet ∨ ∃ v ∈ vals, hasExcKind k v = true := by
  intro key vals
  induction vals with
  | nil => intro k h; simp [applySubscriptLoop] at h
  | cons v rest ih =>
      intro k h
      have hrest : Value.exc k ∈ applySubscriptLoop key rest →
          k ∈ extKindSet ∨ ∃ w ∈ v :: rest, hasExcKind k w = true := by
        intro h2
        rcases ih k h2 with h3 | ⟨w, hw, hk⟩
        · exact Or.inl h3
        · exact Or.inr ⟨w, List.mem_cons_of_mem _ hw, hk⟩
      cases v with
      | obj entries =>
          rcases he : entryValue? key entries with _ | w
          · simp only [applySubscriptLoop, he] at h
            simp at h
            rw [h]
            exact Or.inl (by decide)
          · simp only [applySubscriptLoop, he] at h
            rcases List.mem_cons.mp h with heq | hm
            · obtain ⟨k2, hmem⟩ := entryValue?_mem he
              refine Or.inr ⟨Value.obj entries, List.mem_cons_self _ _, ?_⟩
              exact hasExcKind_obj hmem (by rw [← heq]; exact hasExcKind_self k)
            · exact hrest hm
      | arr elems =>
          cases key with
          | num q =>
              by_cases hden : q.den = 1
              · rcases hx : pyIndex elems q.num with _ | w
                · simp only [applySubscriptLoop, hden, if_true, hx] at h
                  simp at h
                  rw [h]
                  exact Or.inl (by decide)
                · simp only [applySubscriptLoop, hden, if_true, hx] at h
                  rcases List.mem_cons.mp h with heq | hm
                  · refine Or.inr ⟨Value.arr elems, List.mem_cons_self _ _, ?_⟩
                    exact hasExcKind_arr (pyIndex_mem hx)
                      (by rw [← heq]; exact hasExcKind_self k)
                  · exact hrest hm
              · simp only [applySubscriptLoop, hden, if_false] at h
                simp at h
                rw [h]
                exact Or.inl (by decide)
          | null =>
              simp only [applySubscriptLoop] at h
              simp at h; rw [h]; exact Or.inl (by decide)
          | bool b =>
              simp only [applySubscriptLoop] at h
              simp at h; rw [h]; exact Or.inl (by decide)
          | str s =>
              simp only [applySubscriptLoop] at h
              simp at h; rw [h]; exact Or.inl (by decide)
          | arr l2 =>
              simp only [applySubscriptLoop] at h
              simp at h; rw [h]; exact Or.inl (by decide)
          | obj es2 =>
              simp only [applySubscriptLoop] at h
              simp at h; rw [h]; exact Or.inl (by decide)
          | exc k2 =>
              simp only [applySubscriptLoop] at h
              simp at h; rw [h]; exact Or.inl (by decide)
      | null =>
          simp only [applySubscriptLoop] at h
          simp at h; rw [h]; exact Or.inl (by decide)
      | bool b =>
          simp only [applySubscriptLoop] at h
          simp at h; rw [h]; exact Or.inl (by decide)
      | num q =>
          simp only [applySubscriptLoop] at h
          simp at h; rw [h]; exact Or.inl (by decide)
      | str s =>
          simp only [applySubscriptLoop] at h
          simp at h; rw [h]; exact Or.inl (by decide)
      | exc k2 =>
          simp only [applySubscriptLoop] at h
          simp at h; rw [h]; exact Or.inl (by decide)

theorem run_command_exc (res : CommandResult) (k : String)
    (h : Value.exc k ∈ run_command res) :
    k ∈ extKindSet ∨ ∃ vals, res = CommandResult.output vals ∧ Value.exc k ∈ vals := by
  cases res with
  | missing => simp [run_command] at h; rw [h]; exact Or.inl (by decide)
  | denied => simp [run_command] at h; rw [h]; exact Or.inl (by decide)
  | undecodable => simp [run_command] at h; rw [h]; exact Or.inl (by decide)
  | output vals => exact Or.inr ⟨vals, rfl, h⟩

theorem Command_run_exc (name? : Option String) (res : CommandResult) (k : String)
    (h : Value.exc k ∈ Command_run name? res) :
    k ∈ extKindSet ∨ ∃ vals, res = CommandResult.output vals ∧ Value.exc k ∈ vals := by
  cases name? with
  | none => simp [Command_run] at h; rw [h]; exact Or.inl (by decide)
  | some nm => exact run_command_exc res k h

theorem Apply_run_raw_exc (form : ApplyForm) (input : List Value) (k : String)
    (h : Value.exc k ∈ Apply_run_raw form input) :
    k ∈ extKindSet ∨ (∃ v ∈ input, hasExcKind k v = true) ∨
      applyPassThrough form input k := by
  cases form with
  | identity =>
      exact Or.inr (Or.inl ⟨Value.exc k, h, hasExcKind_self k⟩)
  | decimalNum q =>
      simp [Apply_run_raw] at h
  | subscript keyFilter =>
      simp only [Apply_run_raw] at h
      unfold applySubscript at h
      rcases hh : (keyFilter input).head? with _ | key
      · rw [hh] at h
        simp at h
        rw [h]
        exact Or.inl (by decide)
      · rw [hh] at h
        dsimp only at h
        rcases applySubscriptLoop_exc key input k h with h2 | h2
        · exact Or.inl h2
        · exact Or.inr (Or.inl h2)
  | command name? res =>
      rcases Command_run_exc name? res k h with h2 | ⟨vals, hres, hm⟩
      · exact Or.inl h2
      · subst hres
        exact Or.inr (Or.inr (by simp [applyPassThrough, hm]))
  | builtinCall name? cat numArgs =>
      cases name? with
      | none =>
          simp [Apply_run_raw] at h
          rw [h]
          exact Or.inl (by decide)
      | some nm =>
          simp only [Apply_run_raw] at h
          rcases hb : get_builtin cat nm numArgs with _ | builtin
          · rw [hb] at h
            dsimp only at h
            split at h <;> simp at h <;> rw [h] <;> exact Or.inl (by decide)
          · rw [hb] at h
            dsimp only at h
            exact Or.inr (Or.inr ⟨builtin, hb, h⟩)

theorem GlobalVariable_run_raw_exc (name? : Option String) (globals : NS) (k : String)
    (h : Value.exc k ∈ GlobalVariable_run_raw name? globals) :
    k ∈ extKindSet ∨ ∃ nm seq, name? = some nm ∧ nsLookup nm globals = some seq ∧
      Value.exc k ∈ seq := by
  cases name? with
  | none =>
      simp [GlobalVariable_run_raw] at h
      rw [h]
      exact Or.inl (by decide)
  | some nm =>
      simp only [GlobalVariable_run_raw] at h
      rcases hl : nsLookup nm globals with _ | seq
      · rw [hl] at h
        dsimp only at h
        simp at h
        rw [h]
        exact Or.inl (by decide)
      · rw [hl] at h
        dsimp only at h
        exact Or.inr ⟨nm, seq, rfl, hl, h⟩

/-- The argv builtin at arity 0 (functions.py lines 61-65): the context's
process arguments as Strings. -/
def argv0 (args : List String) : List Value := args.map Value.str

/-- The argv builtin at arity 1 (functions.py lines 67-84): the index filter
is evaluated on the input to exactly one value (an empty stream is an empty
Exception, a non-Number a type Exception, a non-integral Number an integer
Exception), then the process argument at that Python index is yielded (out
of range is an index Exception). -/
def argv1 (index : FDen) (args : List String) (input : List Value) : List Value :=
  match (index input).head? with
  | none => [Value.exc "empty"]
  | some v =>
    (match v with
      | .num q =>
        if q.den = 1 then
          (match pyIndex args q.num with
            | some s => [Value.str s]
            | none => [Value.exc "index"])
        else [Value.exc "integer"]
      | _ => [Value.exc "type"])

/-- The each builtin (functions.py lines 86-92): the filter evaluated on a
one-value channel per input value, outputs concatenated. -/
def each (f : FDen) (input : List Value) : List Value :=
  input.flatMap fun v => f [v]

/-- The empty builtin (functions.py lines 94-98): the empty generator. -/
def empty : List Value → List Value := fun _ => []

/-- The explode builtin (functions.py lines 100-107): each String input
value becomes its codepoint numbers (the source pushes raw Python ints); a
non-String yields a type Exception and the following iteration over it then
raises, which ends the generator (the raises flag; wrap_builtin's helper has
no guard, so the pushes simply stop). -/
def explode : List Value → RunGen
  | [] => { yields := [], raises := false }
  | v :: rest =>
    match v with
    | .str s =>
      { yields := s.toList.map (fun c => Value.num c.toNat) ++ (explode rest).yields,
        raises := (explode rest).raises }
    | _ => { yields := [Value.exc "type"], raises := true }

/-- The isMain builtin (functions.py lines 114-117). -/
def isMain (b : Bool) : List Value → List Value := fun _ => [Value.bool b]

/-- The false, null and true builtins (functions.py lines 109-112, 180-183,
206-209). -/
def jqsh_false : List Value → List Value := fun _ => [Value.bool false]

def jqsh_null : List Value → List Value := fun _ => [Value.null]

def jqsh_true : List Value → List Value := fun _ => [Value.bool true]

/-- The loop of the for builtin (functions.py lines 119-127): one body
application per input value, each iteration's full stream forked and
yielded. -/
def forYields (body : FDen) (s : List Value) : Nat → List Value
  | 0 => []
  | n + 1 => body s ++ forYields body (body s) n

/-- The for builtin (functions.py lines 119-127), with the per-value body
chaining started from the initial filter's output. -/
def jqsh_for (initial body : FDen) (input : List Value) : List Value :=
  forYields body (initial input) input.length

/-- The scan of the implode builtin (functions.py lines 129-149): each
input value must be a Number (else a type Exception), integral (else an
integer Exception), and a Unicode scalar value pushable into the String
under construction (else a unicode Exception; the String value model holds
scalar values per spec section 3, values.py not among the sources); the
first failure ends the loop. -/
def implodeAux : List Char → List Value → List Char × List Value
  | acc, [] => (acc, [])
  | acc, v :: rest =>
    match v with
    | .num q =>
      if q.den = 1 then
        if 0 ≤ q.num ∧ (q.num < 55296 ∨ (57344 ≤ q.num ∧ q.num < 1114112)) then
          implodeAux (acc ++ [Char.ofNat q.num.toNat]) rest
        else (acc, [Value.exc "unicode"])
      else (acc, [Value.exc "integer"])
    | _ => (acc, [Value.exc "type"])

/-- The implode builtin (functions.py lines 129-149): the String under
construction is yielded first, then the scan's trailing Exception, if
any. -/
def implode (input : List Value) : List Value :=
  Value.str (String.mk (implodeAux [] input).1) :: (implodeAux [] input).2

/-- The range builtin (functions.py lines 185-195): each Number input value
expands to the Numbers below it (nothing for a non-positive one); a
non-integral one yields an integer Exception, a non-Number a type
Exception, and the loop continues either way. -/
def range (input : List Value) : List Value :=
  input.flatMap fun v =>
    match v with
    | .num q =>
      if q.den = 1 then (List.range q.num.toNat).map fun i => Value.num i
      else [Value.exc "integer"]
    | _ => [Value.exc "type"]

/-- The loop of the reduce builtin (functions.py lines 197-204): one body
application per input value over the running stream. -/
def reduceLoop (body : FDen) : Nat → List Value → List Value
  | 0, s => s
  | n + 1, s => reduceLoop body n (body s)

/-- The reduce builtin (functions.py lines 197-204): the final stream after
one body application per input value, started from the initial filter's
output. -/
def reduce (initial body : FDen) (input : List Value) : List Value :=
  reduceLoop body input.length (initial input)

/-- wrap_builtin (functions.py lines 37-59): the main loop forwards input
values into the bridge but pushes the first input Exception directly to the
output and stops; the helper thread pushes every value the wrapped generator
yields, with no Exception check and no raise guard (a raise simply ends the
helper's pushes); the wrapper then terminates the output exactly once.
Helper events first, as in run_raw. -/
def wrap_builtin (f : List Value → RunGen) (input : List Value) : List Event :=
  (f (takeBeforeExc input)).yields.map Event.push ++
    (match firstExc? input with
      | some e => [Event.push e]
      | none => []) ++
    [Event.terminate]

theorem argv0_exc (args : List String) (k : String)
    (h : Value.exc k ∈ argv0 args) : k ∈ extKindSet := by
  rcases List.mem_map.mp h with ⟨s, hs, heq⟩
  exact absurd heq (by simp)

theorem argv1_exc (index : FDen) (args : List String) (input : List Value) (k : String)
    (h : Value.exc k ∈ argv1 index args input) : k ∈ extKindSet := by
  unfold argv1 at h
  rcases hh : (index input).head? with _ | v
  · rw [hh] at h
    simp at h
    rw [h]
    decide
  · rw [hh] at h
    dsimp only at h
    cases v with
    | num q =>
        by_cases hden : q.den = 1
        · rcases hx : pyIndex args q.num with _ | s
          · simp only [hden, if_true, hx] at h
            simp at h
            rw [h]
            decide
          · simp only [hden, if_true, hx] at h
            simp at h
        · simp only [hden, if_false] at h
          simp at h
          rw [h]
          decide
    | null => simp at h; rw [h]; decide
    | bool b => simp at h; rw [h]; decide
    | str s => simp at h; rw [h]; decide
    | arr l => simp at h; rw [h]; decide
    | obj es => simp at h; rw [h]; decide
    | exc k2 => simp at h; rw [h]; decide

theorem each_exc (f : FDen) (input : List Value) (k : String)
    (h : Value.exc k ∈ each f input) :
    k ∈ extKindSet ∨ ∃ v ∈ input, Value.exc k ∈ f [v] := by
  unfold each at h
  rcases List.mem_flatMap.mp h with ⟨v, hv, hm⟩
  exact Or.inr ⟨v, hv, hm⟩

theorem empty_exc (input : List Value) (k : String)
    (h : Value.exc k ∈ empty input) : k ∈ extKindSet := by
  simp [empty] at h

theorem explode_exc :
    ∀ (input : List Value) (k : String),
      Value.exc k ∈ (explode input).yields → k ∈ extKindSet := by
  intro input
  induction input with
  | nil => intro k h; simp [explode] at h
  | cons v rest ih =>
      intro k h
      cases v with
      | str s =>
          simp only [explode] at h
          rcases List.mem_append.mp h with h2 | h2
          · rcases List.mem_map.mp h2 with ⟨c, hc, heq⟩
            exact absurd heq (by simp)
          · exact ih k h2
      | null => simp [explode] at h; rw [h]; decide
      | bool b => simp [explode] at h; rw [h]; decide
      | num q => simp [explode] at h; rw [h]; decide
      | arr l => simp [explode] at h; rw [h]; decide
      | obj es => simp [explode] at h; rw [h]; decide
      | exc k2 => simp [explode] at h; rw [h]; decide

theorem isMain_exc (b : Bool) (input : List Value) (k : String)
    (h : Value.exc k ∈ isMain b input) : k ∈ extKindSet := by
  simp [isMain] at h

theorem jqsh_false_exc (input : List Value) (k : String)
    (h : Value.exc k ∈ jqsh_false input) : k ∈ extKindSet := by
  simp [jqsh_false] at h

theorem jqsh_null_exc (input : List Value) (k : String)
    (h : Value.exc k ∈ jqsh_null input) : k ∈ extKindSet := by
  simp [jqsh_null] at h

theorem jqsh_true_exc (input : List Value) (k : String)
    (h : Value.exc k ∈ jqsh_true input) : k ∈ extKindSet := by
  simp [jqsh_true] at h

theorem forYields_exc (body : FDen) :
    ∀ (n : Nat) (s : List Value) (k : String),
      Value.exc k ∈ forYields body s n →
      k ∈ extKindSet ∨ ∃ s2, Value.exc k ∈ body s2 := by
  intro n
  induction n with
  | zero => intro s k h; simp [forYields] at h
  | succ n ih =>
      intro s k h
      rcases List.mem_append.mp h with h2 | h2
      · exact Or.inr ⟨s, h2⟩
      · exact ih (body s) k h2

theorem jqsh_for_exc (initial body : FDen) (input : List Value) (k : String)
    (h : Value.exc k ∈ jqsh_for initial body input) :
    k ∈ extKindSet ∨ ∃ s, Value.exc k ∈ body s :=
  forYields_exc body input.length (initial input) k h

theorem implodeAux_trail :
    ∀ (input : List Value) (acc : List Char),
      (implodeAux acc input).2 = [] ∨
      (implodeAux acc input).2 = [Value.exc "unicode"] ∨
      (implodeAux acc input).2 = [Value.exc "integer"] ∨
      (implodeAux acc input).2 = [Value.exc "type"] := by
  intro input
  induction input with
  | nil => intro acc; simp [implodeAux]
  | cons v rest ih =>
      intro acc
      cases v with
      | num q =>
          by_cases hden : q.den = 1
          · simp only [implodeAux, hden, if_true]
            split
            · exact ih _
            · simp
          · simp [implodeAux, hden]
      | null => simp [implodeAux]
      | bool b => simp [implodeAux]
      | str s => simp [implodeAux]
      | arr l => simp [implodeAux]
      | obj es => simp [implodeAux]
      | exc k2 => simp [implodeAux]

theorem implode_exc (input : List Value) (k : String)
    (h : Value.exc k ∈ implode input) : k ∈ extKindSet := by
  unfold implode at h
  rcases List.mem_cons.mp h with heq | hm
  · exact absurd heq (by simp)
  · rcases implodeAux_trail input [] with h2 | h2 | h2 | h2 <;> rw [h2] at hm <;>
      simp at hm <;> rw [hm] <;> decide

theorem range_exc (input : List Value) (k : String)
    (h : Value.exc k ∈ range input) : k ∈ extKindSet := by
  unfold range at h
  rcases List.mem_flatMap.mp h with ⟨v, hv, hm⟩
  cases v with
  | num q =>
      by_cases hden : q.den = 1
      · simp only [hden, if_true] at hm
        rcases List.mem_map.mp hm with ⟨i, hi, heq⟩
        exact absurd heq (by simp)
      · simp only [hden, if_false] at hm
        simp at hm
        rw [hm]
        decide
  | null => simp at hm; rw [hm]; decide
  | bool b => simp at hm; rw [hm]; decide
  | str s => simp at hm; rw [hm]; decide
  | arr l => simp at hm; rw [hm]; decide
  | obj es => simp at hm; rw [hm]; decide
  | exc k2 => simp at hm; rw [hm]; decide

theorem reduceLoop_exc (body : FDen) :
    ∀ (n : Nat) (s : List Value) (k : String),
      Value.exc k ∈ reduceLoop body n s →
      Value.exc k ∈ s ∨ ∃ s2, Value.exc k ∈ body s2 := by
  intro n
  induction n with
  | zero => intro s k h; exact Or.inl h
  | succ n ih =>
      intro s k h
      rcases ih (body s) k h with h2 | h2
      · exact Or.inr ⟨s, h2⟩
      · exact Or.inr h2

theorem reduce_exc (initial body : FDen) (input : List Value) (k : String)
    (h : Value.exc k ∈ reduce initial body input) :
    k ∈ extKindSet ∨ Value.exc k ∈ initial input ∨ ∃ s, Value.exc k ∈ body s := by
  rcases reduceLoop_exc body input.length (initial input) k h with h2 | h2
  · exact Or.inr (Or.inl h2)
  · exact Or.inr (Or.inr h2)

theorem wrap_builtin_exc (f : List Value → RunGen) (input : List Value) (k : String)
    (h : Event.push (Value.exc k) ∈ wrap_builtin f input) :
    k ∈ extKindSet ∨ Value.exc k ∈ (f (takeBeforeExc input)).yields ∨
      Value.exc k ∈ input := by
  unfold wrap_builtin at h
  rcases List.mem_append.mp h with h2 | h2
  · rcases List.mem_append.mp h2 with h3 | h3
    · rcases List.mem_map.mp h3 with ⟨v, hv, heq⟩
      have : v = Value.exc k := by simpa [Event.push.injEq] using heq
      rw [this] at hv
      exact Or.inr (Or.inl hv)
    · rcases hf : firstExc? input with _ | e <;> rw [hf] at h3 <;> simp at h3
      rw [← h3] at hf
      exact Or.inr (Or.inr (firstExc?_mem hf))
  · simp at h2

/-- Claim C8 amended: every Exception value produced by the filters of
filter.py — the base Filter, Parens, Array, Object, Conditional, Try, Name,
NumberLiteral, StringLiteral, Pipe, Add, Apply (in each of its five
resolution forms, Command and run_command included), Assign, Comma,
Multiply, Pair, Semicolon and GlobalVariable — by the generic worker wrapper
Filter.run_raw, by the builtin wrapper wrap_builtin, and by every registered
builtin of functions.py — argv at both arities, each, empty, explode, false,
isMain, for, implode, nth, null, range, reduce and true — carries a kind
drawn from the closed set of the spec extended with numValues; Exception
values merely passed through from a sub-filter's output, a namespace
binding, a resolved builtin, an external command's decoded output, an
operand output or the input stream are accounted for by the respective
pass-through disjuncts. -/
theorem claim_C8_amended_kinds :
    (∀ (index : FDen) (input : List Value) (k : String),
      Value.exc k ∈ nth index input →
      k ∈ extKindSet ∨ Value.exc k ∈ input ∨ Value.exc k ∈ index input) ∧
    (∀ (run : List Value → RunGen) (input : List Value) (k : String),
      Event.push (Value.exc k) ∈ (run_raw run input).events →
      k ∈ extKindSet ∨ Value.exc k ∈ input ∨
        Value.exc k ∈ (run (takeThroughExc input)).yields) ∧
    (∀ (f : List Value → RunGen) (input : List Value) (k : String),
      Event.push (Value.exc k) ∈ wrap_builtin f input →
      k ∈ extKindSet ∨ Value.exc k ∈ (f (takeBeforeExc input)).yields ∨
        Value.exc k ∈ input) ∧
    (∀ (input : List Value) (k : String),
      Value.exc k ∈ Filter_run input → k ∈ extKindSet) ∧
    (∀ (child : FDen) (input : List Value) (k : String),
      Value.exc k ∈ Parens_run child input →
      k ∈ extKindSet ∨ Value.exc k ∈ child input) ∧
    (∀ (child : FDen) (input : List Value) (k : String),
      Value.exc k ∈ Array_run child input → k ∈ extKindSet) ∧
    (∀ (childOut : List Value) (k : String),
      Value.exc k ∈ Object_run childOut → k ∈ extKindSet) ∧
    (∀ (attrs : List CondAttr) (cond? : Option Bool) (input : List Value) (k : String),
      Value.exc k ∈ (Conditional_run attrs cond? input).yields →
      k ∈ extKindSet ∨
        ∃ f, (CondAttr.ifA f ∈ attrs ∨ CondAttr.thenA f ∈ attrs ∨
          CondAttr.elseA f ∈ attrs) ∧ Value.exc k ∈ f input) ∧
    (∀ (attrs : List TryAttr) (input out : List Value) (k : String),
      Try_run attrs input = some out → Value.exc k ∈ out →
      k ∈ extKindSet ∨
        ∃ f, (TryAttr.tryA f ∈ attrs ∨ TryAttr.thenA f ∈ attrs ∨
          TryAttr.exceptA f ∈ attrs ∨ TryAttr.elseA f ∈ attrs) ∧
          Value.exc k ∈ f input) ∧
    (∀ (name : String) (cat : Catalog) (locals : NS) (input : List Value) (k : String),
      Value.exc k ∈ Name_run_raw name cat locals input →
      k ∈ extKindSet ∨
        (∃ seq, nsLookup name locals = some seq ∧ Value.exc k ∈ seq) ∨
        (∃ builtin, get_builtin cat name 0 = some builtin ∧
          Value.exc k ∈ builtin input)) ∧
    (∀ (n : ℚ) (input : List Value) (k : String),
      Value.exc k ∈ NumberLiteral_run n input → k ∈ extKindSet) ∧
    (∀ (s : String) (input : List Value) (k : String),
      Value.exc k ∈ StringLiteral_run s input → k ∈ extKindSet) ∧
    (∀ (evalL evalR : FDen) (input : List Value) (k : String),
      Value.exc k ∈ Pipe_run evalL evalR input →
      k ∈ extKindSet ∨ Value.exc k ∈ evalR (evalL input)) ∧
    (∀ (evalL evalR : FDen) (input : List Value) (k : String),
      Value.exc k ∈ Add_run evalL evalR input →
      k ∈ extKindSet ∨ Value.exc k ∈ evalL input ∨ Value.exc k ∈ evalR input) ∧
    (∀ (form : ApplyForm) (input : List Value) (k : String),
      Value.exc k ∈ Apply_run_raw form input →
      k ∈ extKindSet ∨ (∃ v ∈ input, hasExcKind k v = true) ∨
        applyPassThrough form input k) ∧
    (∀ (target : AssignTarget) (right : FDen) (input : List Value)
        (locals globals : NS) (k : String),
      (Assign_run_raw target right input locals globals).thrown =
          some (Value.exc k) →
      k ∈ extKindSet ∨ Value.exc k ∈ right input) ∧
    (∀ (evalL evalR : FDen) (input : List Value) (k : String),
      Value.exc k ∈ Comma_run evalL evalR input →
      k ∈ extKindSet ∨ Value.exc k ∈ evalL input ∨ Value.exc k ∈ evalR input) ∧
    (∀ (evalL evalR : FDen) (input : List Value) (k : String),
      Value.exc k ∈ Multiply_run evalL evalR input →
      k ∈ extKindSet ∨ Value.exc k ∈ evalL input ∨ Value.exc k ∈ evalR input) ∧
    (∀ (evalL evalR : FDen) (input : List Value) (k : String),
      Value.exc k ∈ Pair_run evalL evalR input → k ∈ extKindSet) ∧
    (∀ (evalL evalR : FDen) (input : List Value) (k : String),
      Value.exc k ∈ Semicolon_run_raw evalL evalR input →
      k ∈ extKindSet ∨ Value.exc k ∈ evalR input) ∧
    (∀ (res : CommandResult) (k : String),
      Value.exc k ∈ run_command res →
      k ∈ extKindSet ∨ ∃ vals, res = CommandResult.output vals ∧
        Value.exc k ∈ vals) ∧
    (∀ (name? : Option String) (res : CommandResult) (k : String),
      Value.exc k ∈ Command_run name? res →
      k ∈ extKindSet ∨ ∃ vals, res = CommandResult.output vals ∧
        Value.exc k ∈ vals) ∧
    (∀ (name? : Option String) (globals : NS) (k : String),
      Value.exc k ∈ GlobalVariable_run_raw name? globals →
      k ∈ extKindSet ∨ ∃ nm seq, name? = some nm ∧
        nsLookup nm globals = some seq ∧ Value.exc k ∈ seq) ∧
    (∀ (args : List String) (k : String),
      Value.exc k ∈ argv0 args → k ∈ extKindSet) ∧
    (∀ (index : FDen) (args : List String) (input : List Value) (k : String),
      Value.exc k ∈ argv1 index args input → k ∈ extKindSet) ∧
    (∀ (f : FDen) (input : List Value) (k : String),
      Value.exc k ∈ each f input →
      k ∈ extKindSet ∨ ∃ v ∈ input, Value.exc k ∈ f [v]) ∧
    (∀ (input : List Value) (k : String),
      Value.exc k ∈ empty input → k ∈ extKindSet) ∧
    (∀ (input : List Value) (k : String),
      Value.exc k ∈ (explode input).yields → k ∈ extKindSet) ∧
    (∀ (input : List Value) (k : String),
      Value.exc k ∈ jqsh_false input → k ∈ extKindSet) ∧
    (∀ (b : Bool) (input : List Value) (k : String),
      Value.exc k ∈ isMain b input → k ∈ extKindSet) ∧
    (∀ (initial body : FDen) (input : List Value) (k : String),
      Value.exc k ∈ jqsh_for initial body input →
      k ∈ extKindSet ∨ ∃ s, Value.exc k ∈ body s) ∧
    (∀ (input : List Value) (k : String),
      Value.exc k ∈ implode input → k ∈ extKindSet) ∧
    (∀ (input : List Value) (k : String),
      Value.exc k ∈ jqsh_null input → k ∈ extKindSet) ∧
    (∀ (input : List Value) (k : String),
      Value.exc k ∈ range input → k ∈ extKindSet) ∧
    (∀ (initial body : FDen) (input : List Value) (k : String),
      Value.exc k ∈ reduce initial body input →
      k ∈ extKindSet ∨ Value.exc k ∈ initial input ∨
        ∃ s, Value.exc k ∈ body s) ∧
    (∀ (input : List Value) (k : String),
      Value.exc k ∈ jqsh_true input → k ∈ extKindSet) :=
  ⟨nth_exc, run_raw_exc, wrap_builtin_exc, Filter_run_exc, Parens_run_exc,
    Array_run_exc, Object_run_exc_kinds, Conditional_run_exc, Try_run_exc,
    Name_run_raw_exc, NumberLiteral_run_exc, StringLiteral_run_exc,
    Pipe_run_exc, Add_run_exc, Apply_run_raw_exc, Assign_thrown_exc,
    Comma_run_exc, Multiply_run_exc, Pair_run_exc, Semicolon_run_raw_exc,
    run_command_exc, Command_run_exc, GlobalVariable_run_raw_exc, argv0_exc,
    argv1_exc, each_exc, empty_exc, explode_exc, jqsh_false_exc, isMain_exc,
    jqsh_for_exc, implode_exc, jqsh_null_exc, range_exc, reduce_exc,
    jqsh_true_exc⟩

def c8Idx : FDen := fun _ => [Value.num 1]

theorem claim_C8_witness :
    "numValues" ∈ extKindSet ∨ Value.exc "numValues" ∈ ([] : List Value) ∨
      Value.exc "numValues" ∈ c8Idx [] :=
  claim_C8_amended_kinds.1 c8Idx [] "numValues"
    (by rw [show nth c8Idx [] = [Value.exc "numValues"] from rfl]; simp)
/-- Membership in Python's string.whitespace. -/
def isPyWs (c : Char) : Bool :=
  c = ' ' || c = '\t' || c = '\n' || c = '\r' || c = '\x0b' || c = '\x0c'

/-- The TokenType enumeration of parser.py (lines 6-14). -/
inductive TokType : Type where
  | close_array : TokType
  | close_paren : TokType
  | comment : TokType
  | illegal : TokType
  | open_array : TokType
  | open_paren : TokType
  | trailing_whitespace : TokType
deriving DecidableEq

/-- A Token of parser.py (lines 16-32): its type, its string field (the
source text it covers, with any accumulated whitespace prefix), and its text
metadata.  Python str is carried as List Char. -/
structure Tok where
  type : TokType
  string : List Char
  text : Option (List Char)
deriving DecidableEq

/-- The symbols table of parser.py (lines 44-49).  All symbols are single
characters, so the longest-symbol-first loop of tokenize (line 115) reduces
to this character lookup. -/
def symType? (c : Char) : Option TokType :=
  if c = '(' then some TokType.open_paren
  else if c = ')' then some TokType.close_paren
  else if c = '[' then some TokType.open_array
  else if c = ']' then some TokType.close_array
  else none

/-- The comment scan of tokenize (parser.py lines 104-111): the characters
of the comment before the next newline, and the rest of the input starting
at that newline (which stays unconsumed). -/
def takeComment : List Char → List Char × List Char
  | [] => ([], [])
  | c :: rest =>
    if c = '\n' then ([], c :: rest)
    else
      let p := takeComment rest
      (c :: p.1, p.2)

theorem takeComment_append : ∀ l : List Char, (takeComment l).1 ++ (takeComment l).2 = l
  | [] => rfl
  | c :: rest => by
      by_cases h : c = '\n' <;> simp [takeComment, h, takeComment_append rest]

theorem takeComment_len : ∀ l : List Char, (takeComment l).2.length ≤ l.length
  | [] => by simp [takeComment]
  | c :: rest => by
      by_cases h : c = '\n'
      · simp [takeComment, h]
      · simp only [takeComment, h, if_false]
        exact Nat.le_succ_of_le (takeComment_len rest)

/-- The main loop of tokenize (parser.py lines 100-126), with the
accumulated whitespace prefix as explicit state: whitespace is attached to
the following token, a hash starts a comment running to the next newline, a
symbol character becomes its token, any other character becomes an illegal
token carrying the whole rest of the text, and a trailing whitespace prefix
becomes a final trailing_whitespace token.  Each iteration consumes at least
one character, so the explicit fuel never runs out when it starts at least
one above the input length (the wrapper tokenize supplies that). -/
def tokenizeCharsF : Nat → List Char → List Char → List Tok
  | 0, _, _ => []
  | fuel + 1, wsAcc, cs =>
    (match cs with
      | [] => if wsAcc.isEmpty then [] else [⟨TokType.trailing_whitespace, wsAcc, none⟩]
      | c :: rest =>
        if isPyWs c then tokenizeCharsF fuel (wsAcc ++ [c]) rest
        else if c = '#' then
          let p := takeComment rest
          ⟨TokType.comment, wsAcc ++ '#' :: p.1, some p.1⟩ :: tokenizeCharsF fuel [] p.2
        else
          match symType? c with
          | some tt => ⟨tt, wsAcc ++ [c], none⟩ :: tokenizeCharsF fuel [] rest
          | none => [⟨TokType.illegal, wsAcc ++ c :: rest, some (c :: rest)⟩])

/-- tokenize (parser.py lines 92-126): a leading byte-order mark joins the
whitespace prefix, then the main loop runs. -/
def tokenize (s : List Char) : List Tok :=
  match s with
  | [] => tokenizeCharsF 1 [] []
  | c :: rest =>
    if c = '\uFEFF' then tokenizeCharsF (rest.length + 1) [c] rest
    else tokenizeCharsF (rest.length + 2) [] (c :: rest)

/-- Concatenation of the string fields of a token list, in order. -/
def catTokStrings (ts : List Tok) : List Char :=
  ts.foldr (fun t acc => t.string ++ acc) []

theorem tokenizeCharsF_cat :
    ∀ (fuel : Nat) (cs wsAcc : List Char), cs.length < fuel →
      catTokStrings (tokenizeCharsF fuel wsAcc cs) = wsAcc ++ cs := by
  intro fuel
  induction fuel with
  | zero => intro cs wsAcc h; omega
  | succ fuel ih =>
      intro cs wsAcc h
      match cs with
      | [] =>
          by_cases hw : wsAcc.isEmpty
          · have : wsAcc = [] := List.isEmpty_iff.mp hw
            simp [tokenizeCharsF, hw, this, catTokStrings]
          · simp [tokenizeCharsF, hw, catTokStrings]
      | c :: rest =>
          by_cases hws : isPyWs c
          · have hr : rest.length < fuel := by simp at h; omega
            simp [tokenizeCharsF, hws, ih rest (wsAcc ++ [c]) hr]
          · by_cases hc : c = '#'
            · subst hc
              have hr : (takeComment rest).2.length < fuel := by
                have := takeComment_len rest
                simp at h
                omega
              have hrec := ih (takeComment rest).2 [] hr
              simp only [catTokStrings] at hrec ⊢
              simp only [tokenizeCharsF]
              rw [if_neg (by decide : ¬ isPyWs '#' = true)]
              simp only [if_true]
              simp only [List.foldr_cons]
              rw [hrec]
              rw [show (wsAcc ++ '#' :: (takeComment rest).1) ++ ([] ++ (takeComment rest).2) =
                  wsAcc ++ '#' :: ((takeComment rest).1 ++ (takeComment rest).2) by simp]
              rw [takeComment_append rest]
            · match hs : symType? c with
              | some tt =>
                  have hr : rest.length < fuel := by simp at h; omega
                  have hrec := ih rest [] hr
                  simp only [catTokStrings] at hrec ⊢
                  simp [tokenizeCharsF, hws, hc, hs, hrec]
              | none =>
                  simp [tokenizeCharsF, hws, hc, hs, catTokStrings]

/-- Claim C10: tokenization is total (tokenize is a total function) and
text-preserving: the concatenation of the tokens' string fields, in order,
equals the input exactly (an unrecognized character becomes an illegal token
carrying the rest of the text, leading whitespace and a byte-order mark are
attached to the following token or to a final trailing_whitespace token). -/
theorem claim_C10_tokenize_preserves_text (s : List Char) :
    catTokStrings (tokenize s) = s := by
  match s with
  | [] => rfl
  | c :: rest =>
      by_cases hbom : c = '\uFEFF'
      · simpa [tokenize, hbom] using
          tokenizeCharsF_cat (rest.length + 1) rest [c] (by omega)
      · simpa [tokenize, hbom] using
          tokenizeCharsF_cat (rest.length + 2) (c :: rest) [] (by simp)

/-- The filter-tree fragment the parser of parser.py can produce or render:
the empty base Filter, Parens, Array (parser.py paren_filters, lines 39-42),
plus Name (filter.py lines 198-206), whose textual form exercises the
tokenizer's fallback. -/
inductive PFilter : Type where
  | empty : PFilter
  | parens (a : PFilter) : PFilter
  | array (a : PFilter) : PFilter
  | name (s : List Char) : PFilter
deriving DecidableEq

/-- The textual form of a filter: Filter.__str__ is the empty string
(filter.py line 35), Parens wraps in parentheses (line 94), Array in
brackets (line 101), Name is its bare name (line 206). -/
def render : PFilter → List Char
  | .empty => []
  | .parens a => '(' :: render a ++ [')']
  | .array a => '[' :: render a ++ [']']
  | .name s => s

/-- The matching_parens table of parser.py (lines 34-37). -/
def matchingClose : TokType → Option TokType
  | .open_array => some TokType.close_array
  | .open_paren => some TokType.close_paren
  | _ => none

/-- Membership in matching_parens.values(). -/
def isCloseTok (tt : TokType) : Bool :=
  tt = TokType.close_array || tt = TokType.close_paren

/-- Membership in matching_parens.keys(). -/
def isOpenTok (tt : TokType) : Bool :=
  tt = TokType.open_array || tt = TokType.open_paren

/-- The paren_filters table of parser.py (lines 39-42); only applied to
opening paren types. -/
def parenFilter (tt : TokType) (inner : PFilter) : PFilter :=
  match tt with
  | .open_array => .array inner
  | _ => .parens inner

/-- The trailing-whitespace merge of parse (parser.py lines 64-65): the last
token's string is appended to the second-to-last token's string and the last
token is removed.  Callers ensure the list has at least two elements. -/
def mergeTrailing : List Tok → List Tok
  | [] => []
  | [_] => []
  | [t2, t1] => [{ t2 with string := t2.string ++ t1.string }]
  | t :: rest => t :: mergeTrailing rest

/-- The reversed-index loop of parse (parser.py lines 66-84), walking the
token list from the right.  State: the already-processed tail (elements to
the right of the current position, with every completed top-level paren
group already replaced by its Filter), the pending tokens between the
current position and the closing paren that opened the current group
(tokens[i+1..paren_start], in order, with that closing paren last), and
paren_balance.  A closing paren at balance zero starts a group
(paren_start); an opening paren at balance zero is an error; an opening
paren closing the current group checks matching_parens against the group's
closing paren and splices in the parsed inner filter; any other token joins
the pending group when one is open, else the tail. -/
def scanRev (parseInner : List Tok → Except String PFilter) :
    List Tok → List (Sum Tok PFilter) → List Tok → Nat →
      Except String (List (Sum Tok PFilter))
  | [], tail, _, balance =>
    if balance ≠ 0 then .error "mismatched parens" else .ok tail
  | t :: rest, tail, pending, balance =>
    if isCloseTok t.type then
      scanRev parseInner rest tail (t :: pending) (balance + 1)
    else if isOpenTok t.type then
      if balance = 0 then .error "too many opening parens"
      else if balance = 1 then
        (match pending.getLast? with
          | some closeTok =>
            if matchingClose t.type = some closeTok.type then
              match parseInner pending.dropLast with
              | .ok inner =>
                scanRev parseInner rest (Sum.inr (parenFilter t.type inner) :: tail) [] 0
              | .error e => .error e
            else .error "paren mismatch"
          | none => .error "impossible")
      else scanRev parseInner rest tail (t :: pending) (balance - 1)
    else
      if balance = 0 then scanRev parseInner rest (Sum.inl t :: tail) pending balance
      else scanRev parseInner rest tail (t :: pending) balance

/-- The tail of parse (parser.py lines 66-90) after the token-list cleanup:
run the reversed scan and accept exactly one resulting Filter. -/
def finishScan (parseInner : List Tok → Except String PFilter) (toks : List Tok) :
    Except String PFilter :=
  match scanRev parseInner toks.reverse [] [] 0 with
  | .ok [Sum.inr f] => .ok f
  | .ok _ => .error "could not parse token list"
  | .error e => .error e

/-- parse (parser.py lines 51-90) on a token list (as produced by tokenize):
comments are filtered out, an empty list gives the empty filter, any illegal
token is a syntax error, a sole trailing_whitespace token gives the empty
filter and otherwise the trailing whitespace is merged into the preceding
token; then the reversed bracket-matching scan runs, recursing into each
paren group's inside.  The recursion is fuelled; each recursive call is on a
strictly shorter token list, so fuel one above the list length (supplied by
parse) never runs out. -/
def parseCore : Nat → List Tok → Except String PFilter
  | 0, _ => .error "out of fuel"
  | fuel + 1, tokens0 =>
    let tokens1 := tokens0.filter fun t => t.type ≠ TokType.comment
    if tokens1.isEmpty then .ok .empty
    else if tokens1.any fun t => t.type = TokType.illegal then .error "illegal character"
    else
      match tokens1.getLast? with
      | some tl =>
        if tl.type = TokType.trailing_whitespace then
          if tokens1.length = 1 then .ok .empty
          else finishScan (parseCore fuel) (mergeTrailing tokens1)
        else finishScan (parseCore fuel) tokens1
      | none => finishScan (parseCore fuel) tokens1

def parse (tokens : List Tok) : Except String PFilter :=
  parseCore (tokens.length + 1) tokens

/-- Claim C9 counterexample: the filter tree Name "foo" renders to the text
foo, which tokenize turns into one illegal token (no identifier tokens are
implemented), so re-parsing the textual form fails with a syntax error
instead of succeeding. -/
theorem claim_C9_counterexample :
    parse (tokenize (render (PFilter.name ['f', 'o', 'o']))) =
      Except.error "illegal character" := rfl

def tokOpenP : Tok := ⟨TokType.open_paren, ['('], none⟩

def tokCloseP : Tok := ⟨TokType.close_paren, [')'], none⟩

def tokOpenA : Tok := ⟨TokType.open_array, ['['], none⟩

def tokCloseA : Tok := ⟨TokType.close_array, [']'], none⟩

/-- The token sequence the textual form of a pure paren tree tokenizes to
(only used for trees of ParenTree shape). -/
def renderToks : PFilter → List Tok
  | .empty => []
  | .parens a => tokOpenP :: renderToks a ++ [tokCloseP]
  | .array a => tokOpenA :: renderToks a ++ [tokCloseA]
  | .name _ => []

/-- Filter trees built only from the constructs the parser of parser.py
implements: the empty filter, Parens and Array. -/
inductive ParenTree : PFilter → Prop where
  | empty : ParenTree .empty
  | parens {a : PFilter} : ParenTree a → ParenTree (.parens a)
  | array {a : PFilter} : ParenTree a → ParenTree (.array a)

/-- Nesting depth, bounding the parse recursion. -/
def depthP : PFilter → Nat
  | .empty => 0
  | .parens a => depthP a + 1
  | .array a => depthP a + 1
  | .name _ => 0

theorem tokF_step_sym (fuel : Nat) (c : Char) (tt : TokType) (wsAcc cs : List Char)
    (hws : isPyWs c = false) (hc : ¬ c = '#') (hsym : symType? c = some tt) :
    tokenizeCharsF (fuel + 1) wsAcc (c :: cs) =
      ⟨tt, wsAcc ++ [c], none⟩ :: tokenizeCharsF fuel [] cs := by
  simp [tokenizeCharsF, hws, hc, hsym]

theorem tokF_render (t : PFilter) (h : ParenTree t) :
    ∀ (rest : List Char) (fuel : Nat),
      tokenizeCharsF ((render t).length + fuel) [] (render t ++ rest) =
        renderToks t ++ tokenizeCharsF fuel [] rest := by
  induction h with
  | empty => intro rest fuel; simp [render, renderToks]
  | @parens a ha ih =>
      intro rest fuel
      have harith : (render (PFilter.parens a)).length + fuel =
          ((render a).length + (1 + fuel)) + 1 := by
        simp [render]; omega
      rw [harith]
      rw [show render (PFilter.parens a) ++ rest = '(' :: (render a ++ (')' :: rest)) from by
        simp [render]]
      rw [tokF_step_sym _ '(' TokType.open_paren _ _ (by decide) (by decide) rfl]
      rw [ih (')' :: rest) (1 + fuel)]
      rw [show 1 + fuel = fuel + 1 from by omega]
      rw [tokF_step_sym _ ')' TokType.close_paren _ _ (by decide) (by decide) rfl]
      simp [renderToks, tokOpenP, tokCloseP]
  | @array a ha ih =>
      intro rest fuel
      have harith : (render (PFilter.array a)).length + fuel =
          ((render a).length + (1 + fuel)) + 1 := by
        simp [render]; omega
      rw [harith]
      rw [show render (PFilter.array a) ++ rest = '[' :: (render a ++ (']' :: rest)) from by
        simp [render]]
      rw [tokF_step_sym _ '[' TokType.open_array _ _ (by decide) (by decide) rfl]
      rw [ih (']' :: rest) (1 + fuel)]
      rw [show 1 + fuel = fuel + 1 from by omega]
      rw [tokF_step_sym _ ']' TokType.close_array _ _ (by decide) (by decide) rfl]
      simp [renderToks, tokOpenA, tokCloseA]

theorem tokenize_render (t : PFilter) (h : ParenTree t) :
    tokenize (render t) = renderToks t := by
  cases h with
  | empty => rfl
  | @parens a ha =>
      have hmain := tokF_render _ (ParenTree.parens ha) [] 1
      rw [List.append_nil] at hmain
      rw [show tokenizeCharsF 1 [] ([] : List Char) = [] from rfl, List.append_nil] at hmain
      rw [show render (PFilter.parens a) = '(' :: (render a ++ [')']) from rfl]
      simp only [tokenize]
      rw [if_neg (by decide : ¬ '(' = '﻿')]
      rw [show (render a ++ [')']).length + 2 = (render (PFilter.parens a)).length + 1 from by
        simp [render]]
      exact hmain
  | @array a ha =>
      have hmain := tokF_render _ (ParenTree.array ha) [] 1
      rw [List.append_nil] at hmain
      rw [show tokenizeCharsF 1 [] ([] : List Char) = [] from rfl, List.append_nil] at hmain
      rw [show render (PFilter.array a) = '[' :: (render a ++ [']']) from rfl]
      simp only [tokenize]
      rw [if_neg (by decide : ¬ '[' = '﻿')]
      rw [show (render a ++ [']']).length + 2 = (render (PFilter.array a)).length + 1 from by
        simp [render]]
      exact hmain

theorem scanRev_group (pi : List Tok → Except String PFilter) (t : PFilter)
    (h : ParenTree t) :
    ∀ (rest : List Tok) (tail : List (Sum Tok PFilter)) (pending : List Tok) (b : Nat),
      1 ≤ b →
      scanRev pi ((renderToks t).reverse ++ rest) tail pending b =
        scanRev pi rest tail (renderToks t ++ pending) b := by
  induction h with
  | empty => intro rest tail pending b hb; simp [renderToks]
  | @parens a ha ih =>
      intro rest tail pending b hb
      obtain ⟨b2, rfl⟩ : ∃ b2, b = b2 + 1 := ⟨b - 1, by omega⟩
      rw [show (renderToks (PFilter.parens a)).reverse ++ rest =
          tokCloseP :: ((renderToks a).reverse ++ (tokOpenP :: rest)) from by
        simp [renderToks]]
      rw [show scanRev pi (tokCloseP :: ((renderToks a).reverse ++ (tokOpenP :: rest)))
            tail pending (b2 + 1) =
          scanRev pi ((renderToks a).reverse ++ (tokOpenP :: rest)) tail
            (tokCloseP :: pending) (b2 + 1 + 1) from by
        simp [scanRev, isCloseTok, tokCloseP]]
      rw [ih (tokOpenP :: rest) tail (tokCloseP :: pending) (b2 + 1 + 1) (by omega)]
      rw [show scanRev pi (tokOpenP :: rest) tail (renderToks a ++ tokCloseP :: pending)
            (b2 + 1 + 1) =
          scanRev pi rest tail (tokOpenP :: (renderToks a ++ tokCloseP :: pending))
            (b2 + 1) from by
        simp [scanRev, isCloseTok, isOpenTok, tokOpenP]]
      rw [show tokOpenP :: (renderToks a ++ tokCloseP :: pending) =
          renderToks (PFilter.parens a) ++ pending from by
        simp [renderToks]]
  | @array a ha ih =>
      intro rest tail pending b hb
      obtain ⟨b2, rfl⟩ : ∃ b2, b = b2 + 1 := ⟨b - 1, by omega⟩
      rw [show (renderToks (PFilter.array a)).reverse ++ rest =
          tokCloseA :: ((renderToks a).reverse ++ (tokOpenA :: rest)) from by
        simp [renderToks]]
      rw [show scanRev pi (tokCloseA :: ((renderToks a).reverse ++ (tokOpenA :: rest)))
            tail pending (b2 + 1) =
          scanRev pi ((renderToks a).reverse ++ (tokOpenA :: rest)) tail
            (tokCloseA :: pending) (b2 + 1 + 1) from by
        simp [scanRev, isCloseTok, tokCloseA]]
      rw [ih (tokOpenA :: rest) tail (tokCloseA :: pending) (b2 + 1 + 1) (by omega)]
      rw [show scanRev pi (tokOpenA :: rest) tail (renderToks a ++ tokCloseA :: pending)
            (b2 + 1 + 1) =
          scanRev pi rest tail (tokOpenA :: (renderToks a ++ tokCloseA :: pending))
            (b2 + 1) from by
        simp [scanRev, isCloseTok, isOpenTok, tokOpenA]]
      rw [show tokOpenA :: (renderToks a ++ tokCloseA :: pending) =
          renderToks (PFilter.array a) ++ pending from by
        simp [renderToks]]

theorem renderToks_types (t : PFilter) (h : ParenTree t) :
    ∀ tk ∈ renderToks t,
      tk.type = TokType.open_paren ∨ tk.type = TokType.close_paren ∨
      tk.type = TokType.open_array ∨ tk.type = TokType.close_array := by
  induction h with
  | empty => intro tk htk; simp [renderToks] at htk
  | @parens a ha ih =>
      intro tk htk
      simp only [renderToks, List.mem_cons, List.mem_append, List.mem_singleton] at htk
      rcases htk with (rfl | htk) | (rfl | h0)
      · exact Or.inl rfl
      · exact ih tk htk
      · exact Or.inr (Or.inl rfl)
      · simp at h0
  | @array a ha ih =>
      intro tk htk
      simp only [renderToks, List.mem_cons, List.mem_append, List.mem_singleton] at htk
      rcases htk with (rfl | htk) | (rfl | h0)
      · exact Or.inr (Or.inr (Or.inl rfl))
      · exact ih tk htk
      · exact Or.inr (Or.inr (Or.inr rfl))
      · simp at h0

theorem parseCore_no_cleanup (f : Nat) (toks : List Tok)
    (hfilter : toks.filter (fun tk => tk.type ≠ TokType.comment) = toks)
    (hne : toks.isEmpty = false)
    (hnoill : (toks.any fun tk => tk.type = TokType.illegal) = false)
    (hlast : ∃ tl, toks.getLast? = some tl ∧ tl.type ≠ TokType.trailing_whitespace) :
    parseCore (f + 1) toks = finishScan (parseCore f) toks := by
  obtain ⟨tl, hl, hty⟩ := hlast
  simp only [parseCore]
  rw [hfilter, hne, hnoill, hl]
  simp [hty]

theorem parseCore_renderToks (t : PFilter) (h : ParenTree t) :
    ∀ fuel, depthP t < fuel → parseCore fuel (renderToks t) = .ok t := by
  induction h with
  | empty =>
      intro fuel hf
      cases fuel with
      | zero => omega
      | succ f => simp [parseCore, renderToks]
  | @parens a ha ih =>
      intro fuel hf
      cases fuel with
      | zero => omega
      | succ f =>
          have hfa : depthP a < f := by
            simp only [depthP] at hf
            omega
          have htypes := renderToks_types _ (ParenTree.parens ha)
          have hfilter : (renderToks (PFilter.parens a)).filter
              (fun tk => tk.type ≠ TokType.comment) = renderToks (PFilter.parens a) := by
            rw [List.filter_eq_self]
            intro tk htk
            rcases htypes tk htk with h1 | h1 | h1 | h1 <;> simp [h1]
          have hne : (renderToks (PFilter.parens a)).isEmpty = false := by
            simp [renderToks]
          have hnoill : ((renderToks (PFilter.parens a)).any
              fun tk => tk.type = TokType.illegal) = false := by
            cases hcon : ((renderToks (PFilter.parens a)).any
                fun tk => tk.type = TokType.illegal) with
            | false => rfl
            | true =>
                rw [List.any_eq_true] at hcon
                obtain ⟨tk, htk, hty⟩ := hcon
                simp at hty
                rcases htypes tk htk with h1 | h1 | h1 | h1 <;> rw [h1] at hty <;>
                  exact absurd hty (by decide)
          have hlast : (renderToks (PFilter.parens a)).getLast? = some tokCloseP := by
            rw [show renderToks (PFilter.parens a) =
                (tokOpenP :: renderToks a) ++ [tokCloseP] from by simp [renderToks]]
            exact List.getLast?_concat _
          rw [parseCore_no_cleanup f _ hfilter hne hnoill ⟨tokCloseP, hlast, by decide⟩]
          have hscan : scanRev (parseCore f) (renderToks (PFilter.parens a)).reverse [] [] 0 =
              .ok [Sum.inr (PFilter.parens a)] := by
            rw [show (renderToks (PFilter.parens a)).reverse =
                tokCloseP :: ((renderToks a).reverse ++ [tokOpenP]) from by simp [renderToks]]
            rw [show scanRev (parseCore f)
                  (tokCloseP :: ((renderToks a).reverse ++ [tokOpenP])) [] [] 0 =
                scanRev (parseCore f) ((renderToks a).reverse ++ [tokOpenP]) []
                  [tokCloseP] 1 from by
              simp [scanRev, isCloseTok, tokCloseP]]
            rw [scanRev_group (parseCore f) a ha [tokOpenP] [] [tokCloseP] 1 (by omega)]
            have hlast2 : (renderToks a ++ [tokCloseP]).getLast? = some tokCloseP :=
              List.getLast?_concat _
            have hdrop : (renderToks a ++ [tokCloseP]).dropLast = renderToks a :=
              List.dropLast_concat
            simp [scanRev, isCloseTok, isOpenTok, tokOpenP, tokCloseP, hlast2, hdrop,
              ih f hfa, matchingClose, parenFilter]
          simp [finishScan, hscan]
  | @array a ha ih =>
      intro fuel hf
      cases fuel with
      | zero => omega
      | succ f =>
          have hfa : depthP a < f := by
            simp only [depthP] at hf
            omega
          have htypes := renderToks_types _ (ParenTree.array ha)
          have hfilter : (renderToks (PFilter.array a)).filter
              (fun tk => tk.type ≠ TokType.comment) = renderToks (PFilter.array a) := by
            rw [List.filter_eq_self]
            intro tk htk
            rcases htypes tk htk with h1 | h1 | h1 | h1 <;> simp [h1]
          have hne : (renderToks (PFilter.array a)).isEmpty = false := by
            simp [renderToks]
          have hnoill : ((renderToks (PFilter.array a)).any
              fun tk => tk.type = TokType.illegal) = false := by
            cases hcon : ((renderToks (PFilter.array a)).any
                fun tk => tk.type = TokType.illegal) with
            | false => rfl
            | true =>
                rw [List.any_eq_true] at hcon
                obtain ⟨tk, htk, hty⟩ := hcon
                simp at hty
                rcases htypes tk htk with h1 | h1 | h1 | h1 <;> rw [h1] at hty <;>
                  exact absurd hty (by decide)
          have hlast : (renderToks (PFilter.array a)).getLast? = some tokCloseA := by
            rw [show renderToks (PFilter.array a) =
                (tokOpenA :: renderToks a) ++ [tokCloseA] from by simp [renderToks]]
            exact List.getLast?_concat _
          rw [parseCore_no_cleanup f _ hfilter hne hnoill ⟨tokCloseA, hlast, by decide⟩]
          have hscan : scanRev (parseCore f) (renderToks (PFilter.array a)).reverse [] [] 0 =
              .ok [Sum.inr (PFilter.array a)] := by
            rw [show (renderToks (PFilter.array a)).reverse =
                tokCloseA :: ((renderToks a).reverse ++ [tokOpenA]) from by simp [renderToks]]
            rw [show scanRev (parseCore f)
                  (tokCloseA :: ((renderToks a).reverse ++ [tokOpenA])) [] [] 0 =
                scanRev (parseCore f) ((renderToks a).reverse ++ [tokOpenA]) []
                  [tokCloseA] 1 from by
              simp [scanRev, isCloseTok, tokCloseA]]
            rw [scanRev_group (parseCore f) a ha [tokOpenA] [] [tokCloseA] 1 (by omega)]
            have hlast2 : (renderToks a ++ [tokCloseA]).getLast? = some tokCloseA :=
              List.getLast?_concat _
            have hdrop : (renderToks a ++ [tokCloseA]).dropLast = renderToks a :=
              List.dropLast_concat
            simp [scanRev, isCloseTok, isOpenTok, tokOpenA, tokCloseA, hlast2, hdrop,
              ih f hfa, matchingClose, parenFilter]
          simp [finishScan, hscan]

theorem depthP_le (t : PFilter) (h : ParenTree t) : depthP t ≤ (renderToks t).length := by
  induction h with
  | empty => simp [depthP, renderToks]
  | @parens a ha ih =>
      simp only [depthP, renderToks, List.length_cons, List.length_append,
        List.length_singleton]
      omega
  | @array a ha ih =>
      simp only [depthP, renderToks, List.length_cons, List.length_append,
        List.length_singleton]
      omega

/-- Claim C9 amended: for every filter tree built from the constructs the
parser implements (the empty filter, Parens, Array), rendering it to its
textual form and re-parsing that text succeeds and reproduces the very same
tree; trees whose textual form needs tokens the tokenizer does not implement
(for example a bare Name) fail to re-parse with a syntax error. -/
theorem claim_C9_amended_roundtrip (t : PFilter) (h : ParenTree t) :
    parse (tokenize (render t)) = .ok t := by
  rw [tokenize_render t h]
  unfold parse
  exact parseCore_renderToks t h _ (by have := depthP_le t h; omega)

theorem claim_C9_witness :
    parse (tokenize (render (PFilter.parens (PFilter.array PFilter.empty)))) =
      .ok (PFilter.parens (PFilter.array PFilter.empty)) :=
  claim_C9_amended_roundtrip _ (ParenTree.parens (ParenTree.array ParenTree.empty))
